import Mathlib

set_option maxRecDepth 40000

/-!
Verification of the adaptive streaming output delivery pipeline
(`jonbot/frontends/discord_bot/handlers/discord_message_responder.py`).

Text is modelled as `List Char`.  Python string primitives used by the source
(`startswith`, `replace`, `in`, slicing in steps of `comfy_message_length`)
are embedded as fuel-based structural recursions so that every definition is
executable by the kernel.  The mutable `DiscordMessageResponder` object is
modelled as an explicit state record; the Discord surface is modelled by an
arena of message records (the `.content` attribute and the server-side
content set by `reply`/`edit` are tracked separately) plus a log of every
`edit(content=...)` payload.  Jump URLs of created messages are supplied by
the environment through `Config.urls`.
-/

abbrev Str := List Char

def pyStr (s : String) : Str := s.data

/-- Python `pre + s` test `s.startswith(pre)`. -/
def pyStartsWith (pre s : Str) : Bool := pre.isPrefixOf s

/-- Python substring test `pat in s`. -/
def pyContains (pat : Str) : Str → Bool
  | [] => decide (pat = [])
  | c :: rest => pat.isPrefixOf (c :: rest) || pyContains pat rest

/-- Fuel-driven core of Python `s.replace(old, new)` (left-to-right,
non-overlapping).  Faithful whenever `old ≠ []`, which holds at both call
sites of the source (`f"{bot_name}:"` and `"STOP_STREAMING"`). -/
def pyReplaceFuel (old new : Str) : Nat → Str → Str
  | _, [] => []
  | 0, s => s
  | fuel + 1, c :: rest =>
    if old ≠ [] ∧ old.isPrefixOf (c :: rest) then
      new ++ pyReplaceFuel old new fuel (List.drop old.length (c :: rest))
    else
      c :: pyReplaceFuel old new fuel rest

def pyReplace (old new s : Str) : Str := pyReplaceFuel old new s.length s

/-- Fuel-driven core of
`[s[i:i+n] for i in range(0, len(s), n)]`; faithful for `n ≥ 1`
(the source always uses `n = comfy_message_length = 1600`). -/
def pyChunksFuel (n : Nat) : Nat → Str → List Str
  | _, [] => []
  | 0, s => [s]
  | fuel + 1, c :: rest => List.take n (c :: rest) :: pyChunksFuel n fuel (List.drop n (c :: rest))

def pyChunks (n : Nat) (s : Str) : List Str := pyChunksFuel n s.length s

/-- `STOP_STREAMING_TOKEN = "STOP_STREAMING"`. -/
def STOP_STREAMING_TOKEN : Str := pyStr "STOP_STREAMING"

/-- `self.max_message_length = 2000`. -/
def maxMessageLength : Nat := 2000

/-- `self.comfy_message_length = int(self.max_message_length * 0.8)`;
`int(2000 * 0.8) = 1600` exactly. -/
def comfyMessageLength : Nat := 1600

/-- Default `chunk_size` of `_run_token_queue_loop`. -/
def chunkSizeDefault : Nat := 20

/-- Wrapper opening of a continuation seed:
`f"{self.message_prefix}continuing from: \n\n > {chunk} \n\n"`. -/
def contPre : Str := pyStr "continuing from: \n\n > "

/-- Wrapper closing of a continuation seed. -/
def contSuf : Str := pyStr " \n\n"

/-- Footer prepended to the forward link:
`f"\n\n `continued in next message:`\n {new_message.jump_url}"`. -/
def footerPre : Str := pyStr "\n\n `continued in next message:`\n "

/-- One Discord message: its locally stored `.content` attribute, the content
last sent to the server (by `reply` or `edit(content=...)`), and its
`jump_url`. -/
structure MsgRec where
  localContent : Str
  serverContent : Str
  jumpUrl : Str
deriving DecidableEq

/-- Constructor arguments plus the environment: `message_prefix`,
`bot_name`, and the jump URL Discord assigns to the k-th created message. -/
structure Config where
  messagePrefix : Str
  botName : Str
  urls : Nat → Str

/-- The mutable state of one `DiscordMessageResponder` after `initialize`:
`message_content`, `_full_message_content`, `_reply_messages` (as indices
into the arena), the index of `_reply_message`, the arena of all messages
created in this session, `done`, the log of `edit(content=...)` payloads,
and the attachment uploaded by `_send_full_text_as_attachment` (if any). -/
structure ResponderState where
  messageContent : Str
  fullMessageContent : Str
  replyMessages : List Nat
  currentMsg : Nat
  arena : List MsgRec
  done : Bool
  editLog : List Str
  attachment : Option Str
deriving DecidableEq

/-- Replace the i-th record of the arena. -/
def modifyAt (f : MsgRec → MsgRec) : Nat → List MsgRec → List MsgRec
  | _, [] => []
  | 0, m :: rest => f m :: rest
  | i + 1, m :: rest => m :: modifyAt f i rest

/-- `__init__` plus `initialize`: the reply message is created with
`initial_message_content` and `message_content` starts as `message_prefix`. -/
def initState (cfg : Config) (initialMessageContent : Str) : ResponderState :=
  { messageContent := cfg.messagePrefix
    fullMessageContent := []
    replyMessages := []
    currentMsg := 0
    arena := [{ localContent := initialMessageContent
                serverContent := initialMessageContent
                jumpUrl := cfg.urls 0 }]
    done := false
    editLog := []
    attachment := none }

/-- `await self._reply_message.edit(content=payload)`. -/
def editCurrent (payload : Str) (s : ResponderState) : ResponderState :=
  { s with
    arena := modifyAt (fun m => { m with serverContent := payload }) s.currentMsg s.arena
    editLog := s.editLog ++ [payload] }

/-- `_add_reply_message_to_list`: overwrite the current message's `.content`
attribute with `message_content` and append it to `_reply_messages`. -/
def addReplyMessageToList (s : ResponderState) : ResponderState :=
  { s with
    arena := modifyAt (fun m => { m with localContent := s.messageContent }) s.currentMsg s.arena
    replyMessages := s.replyMessages ++ [s.currentMsg] }

/-- `get_reply_messages`. -/
def getReplyMessages (s : ResponderState) : List Nat × ResponderState :=
  let s1 := addReplyMessageToList s
  (s1.replyMessages, s1)

/-- One iteration of the `for chunk in chunks` loop of
`handle_message_length_overflow`. -/
def overflowSlice (cfg : Config) (s : ResponderState) (slice : Str) : ResponderState :=
  let seed := cfg.messagePrefix ++ contPre ++ slice ++ contSuf
  let newIdx := s.arena.length
  let s1 := { s with
    arena := s.arena ++ [({ localContent := seed, serverContent := seed, jumpUrl := cfg.urls newIdx } : MsgRec)] }
  let mc := s1.messageContent ++ footerPre ++ cfg.urls newIdx
  let s2 := editCurrent mc { s1 with messageContent := mc }
  let s3 := addReplyMessageToList { s2 with messageContent := seed }
  { s3 with currentMsg := newIdx }

/-- `handle_message_length_overflow`. -/
def handleMessageLengthOverflow (cfg : Config) (inputChunk : Str) (s : ResponderState) : ResponderState :=
  (pyChunks comfyMessageLength inputChunk).foldl (overflowSlice cfg) s

/-- The `if not chunk == ""` block of `add_text_to_reply_message`, applied to
the already marker-stripped chunk. -/
def writeChunk (cfg : Config) (chunk2 : Str) (s1 : ResponderState) : ResponderState :=
  if chunk2 = [] then s1
  else if s1.messageContent.length + chunk2.length > comfyMessageLength then
    handleMessageLengthOverflow cfg chunk2 s1
  else
    editCurrent (s1.messageContent ++ chunk2) { s1 with messageContent := s1.messageContent ++ chunk2 }

/-- The tail of `add_text_to_reply_message` after the transcript append:
write the marker-stripped chunk, then set `done` if the marker was seen. -/
def applyCleaned (cfg : Config) (stopNow : Bool) (chunk2 : Str) (s1 : ResponderState) : ResponderState :=
  if stopNow then { writeChunk cfg chunk2 s1 with done := true } else writeChunk cfg chunk2 s1

/-- Python `f"{self._bot_name}:"` echo stripping at the head of
`add_text_to_reply_message`. -/
def stripName (cfg : Config) (chunk0 : Str) : Str :=
  if pyStartsWith (cfg.botName ++ pyStr ":") chunk0 then
    pyReplace (cfg.botName ++ pyStr ":") [] chunk0
  else chunk0

/-- `add_text_to_reply_message` (with the default `show_delta_t=False`,
which is what the queue loop uses). -/
def addTextToReplyMessage (cfg : Config) (chunk0 : Str) (s : ResponderState) : ResponderState :=
  let chunk1 := stripName cfg chunk0
  let stopNow := pyContains STOP_STREAMING_TOKEN chunk1
  let chunk2 := if stopNow then pyReplace STOP_STREAMING_TOKEN [] chunk1 else chunk1
  applyCleaned cfg stopNow chunk2 { s with fullMessageContent := s.fullMessageContent ++ chunk1 }

/-- The batching loop task plus the not-yet-flushed `chunk` list and whether
the task has returned. -/
structure LoopState where
  st : ResponderState
  chunkAcc : List Str
  loopDone : Bool

/-- One cycle of the `while True` loop of `_run_token_queue_loop`, given the
tokens drained at this cycle (`[]` models an empty poll, which leaves all
state unchanged; the break-on-`done`, the live queue and the empty-poll
sleep are modelled by `wakeStep` below, of which this is the drain case —
see `runEvents_round`). -/
def loopCycle (cfg : Config) (drained : List Str) (ls : LoopState) : LoopState :=
  if drained = [] then ls
  else
    let acc := ls.chunkAcc ++ drained
    if acc.length > chunkSizeDefault then
      { ls with st := addTextToReplyMessage cfg acc.flatten ls.st, chunkAcc := [] }
    else
      { ls with chunkAcc := acc }

def processBatches (cfg : Config) : List (List Str) → LoopState → LoopState
  | [], ls => ls
  | b :: bs, ls => processBatches cfg bs (loopCycle cfg b ls)

/-- `_send_full_text_as_attachment`: the uploaded file holds
`_full_message_content`. -/
def sendFullTextAsAttachment (s : ResponderState) : ResponderState :=
  { s with attachment := some s.fullMessageContent }

/-- The code after the `break` of `_run_token_queue_loop`: flush the trailing
chunk, then attach the transcript if `len(self._reply_messages) > 1`. -/
def finishLoop (cfg : Config) (ls : LoopState) : LoopState :=
  let s1 := addTextToReplyMessage cfg ls.chunkAcc.flatten ls.st
  let s2 := if s1.replyMessages.length > 1 then sendFullTextAsAttachment s1 else s1
  { st := s2, chunkAcc := [], loopDone := true }

def initLoop (cfg : Config) (initialMessageContent : Str) : LoopState :=
  { st := initState cfg initialMessageContent, chunkAcc := [], loopDone := false }

/-- `shutdown`: set `done`, then await the loop task; if the task is still
running it will observe `done` at its next empty poll, break, and run the
after-break code.  Awaiting an already finished task is a no-op. -/
def shutdown (cfg : Config) (ls : LoopState) : LoopState :=
  let ls1 := { ls with st := { ls.st with done := true } }
  if ls1.loopDone then ls1 else finishLoop cfg ls1

/-- A session on a drained schedule: the drain events of the loop in order,
followed by `shutdown()` (the way every caller in the repository terminates
a session), restricted to executions in which every pushed fragment is
drained before the final polling window opens.  `runEvents_canonSchedule`
proves this agrees with the interleaving semantics (`sessionStep` below) on
those schedules; a fragment pushed *during* the final window is dropped by
the code and is representable only in the interleaving semantics
(`C3_dropped_fragment`). -/
def runWithShutdown (cfg : Config) (ic : Str) (batches : List (List Str)) : LoopState :=
  shutdown cfg (processBatches cfg batches (initLoop cfg ic))

def runResult (cfg : Config) (ic : Str) (batches : List (List Str)) : ResponderState :=
  (runWithShutdown cfg ic batches).st

/-- Sequential `add_text_to_reply_message` calls. -/
def applyChunks (cfg : Config) (cs : List Str) (s : ResponderState) : ResponderState :=
  cs.foldl (fun t c => addTextToReplyMessage cfg c t) s

/-- The texts the loop passes to `add_text_to_reply_message`, as a function
of the drain events (the trailing flush included). -/
def flushesAux : List Str → List (List Str) → List Str
  | acc, [] => [acc.flatten]
  | acc, b :: bs =>
    if b = [] then flushesAux acc bs
    else
      let acc1 := acc ++ b
      if acc1.length > chunkSizeDefault then acc1.flatten :: flushesAux [] bs
      else flushesAux acc1 bs

def flushes (batches : List (List Str)) : List Str := flushesAux [] batches

/-! The interleaving semantics of `_run_token_queue_loop` together with its
environment: the token queue is explicit, and the producer
(`add_token_to_queue`), `shutdown()` and the scheduler resuming the loop
task interleave as events.  `runWithShutdown` above covers the drained
schedules; `runEvents_canonSchedule` proves the two agree there. -/

/-- Where the `_run_token_queue_loop` task is suspended: `polling` = in the
pacing sleep of line 62, about to check `empty()`; `window` = in the extra
`base_delay` sleep of line 68 after an empty poll, about to check
`self.done` alone; `finished` = the task has returned. -/
inductive LoopPhase where
  | polling
  | window
  | finished

/-- A live session: the pending `_token_queue` contents (oldest first), the
responder state, the accumulated un-flushed `chunk`, and the loop task's
suspension point. -/
structure Session where
  queue : List Str
  st : ResponderState
  chunkAcc : List Str
  phase : LoopPhase

/-- An interleaving event: `add_token_to_queue` enqueues a fragment,
`shutdown()` sets `self.done` (awaiting the finished task changes no
state), or the scheduler resumes the loop task at its suspension point. -/
inductive SessionEv where
  | push (t : Str)
  | setDone
  | wake

/-- Lines 75–84: a non-empty poll drains the whole queue into `chunk` and
flushes it when more than `chunk_size` fragments have accumulated. -/
def drainStep (cfg : Config) (s : Session) : Session :=
  let acc := s.chunkAcc ++ s.queue
  if acc.length > chunkSizeDefault then
    { s with queue := [], chunkAcc := [], st := addTextToReplyMessage cfg acc.flatten s.st }
  else { s with queue := [], chunkAcc := acc }

/-- Lines 86–89, the code after `break`: flush the trailing chunk and run
the attachment check.  The queue is not read: whatever it still holds stays
behind. -/
def breakStep (cfg : Config) (s : Session) : Session :=
  let s1 := addTextToReplyMessage cfg s.chunkAcc.flatten s.st
  let s2 := if s1.replyMessages.length > 1 then sendFullTextAsAttachment s1 else s1
  { queue := s.queue, st := s2, chunkAcc := [], phase := LoopPhase.finished }

/-- Resuming the loop task.  At `polling` it checks `empty()` (line 64):
non-empty drains, empty moves into the extra sleep.  At `window` it checks
`self.done` *alone* (line 69) — the queue is not re-checked — and on `done`
it breaks via `breakStep`; otherwise the loop continues. -/
def wakeStep (cfg : Config) (s : Session) : Session :=
  match s.phase with
  | LoopPhase.polling =>
    if s.queue = [] then { s with phase := LoopPhase.window } else drainStep cfg s
  | LoopPhase.window =>
    if s.st.done then breakStep cfg s else { s with phase := LoopPhase.polling }
  | LoopPhase.finished => s

/-- One interleaving event. -/
def sessionStep (cfg : Config) (s : Session) : SessionEv → Session
  | SessionEv.push t => { s with queue := s.queue ++ [t] }
  | SessionEv.setDone => { s with st := { s.st with done := true } }
  | SessionEv.wake => wakeStep cfg s

/-- A session is a fold of its event schedule. -/
def runEvents (cfg : Config) (evs : List SessionEv) (s : Session) : Session :=
  evs.foldl (sessionStep cfg) s

/-- The session right after `initialize`: empty queue, seeded reply message,
empty accumulator, loop task about to poll. -/
def initSession (cfg : Config) (ic : Str) : Session :=
  { queue := [], st := initState cfg ic, chunkAcc := [], phase := LoopPhase.polling }

/-- The loop-side view of a drained state, as a session about to poll. -/
def sessionOf (ls : LoopState) : Session :=
  { queue := [], st := ls.st, chunkAcc := ls.chunkAcc, phase := LoopPhase.polling }

/-- The fragments the producer pushes over a schedule, in order. -/
def pushedTokens (evs : List SessionEv) : List Str :=
  evs.filterMap fun e =>
    match e with
    | SessionEv.push t => some t
    | _ => none

/-- The canonical drained schedules: each batch is pushed in full before the
poll that drains it, and `shutdown()` runs once the queue is empty, with
nothing pushed during the final window. -/
def canonRounds : List (List Str) → List SessionEv
  | [] => []
  | b :: bs => b.map SessionEv.push ++ [SessionEv.wake] ++ canonRounds bs

def canonSchedule (bs : List (List Str)) : List SessionEv :=
  canonRounds bs ++ [SessionEv.setDone, SessionEv.wake, SessionEv.wake]

/-- The attachment step of `finishLoop`, split out. -/
def postAttach (s : ResponderState) : ResponderState :=
  if s.replyMessages.length > 1 then sendFullTextAsAttachment s else s

/-- Remove `pre` from the front of `s` when it is present there. -/
def dropPrefixIf (pre s : Str) : Str :=
  if pre.isPrefixOf s then List.drop pre.length s else s

/-- Remove `suf` from the end of `s` when it is present there. -/
def dropSuffixIf (suf s : Str) : Str :=
  if suf.isSuffixOf s then List.take (s.length - suf.length) s else s

/-- The chain contents in chain order, each stripped of the continuation
wrapper opening (if present) and of the continuation-link footer pointing at
the next created message (if present) — the stripping C1 speaks about. -/
def strippedOutputsAux (cfg : Config) : Nat → List MsgRec → List Str
  | _, [] => []
  | i, m :: rest =>
    dropPrefixIf contPre (dropSuffixIf (footerPre ++ cfg.urls (i + 1)) m.serverContent) ::
      strippedOutputsAux cfg (i + 1) rest

def strippedOutputs (cfg : Config) (s : ResponderState) : List Str :=
  strippedOutputsAux cfg 0 s.arena

/-- Modelled from the spec (§4.3–§4.4): the Writer and the Paginator acting
directly on wrapper- and footer-stripped content.  `outs` are the stripped
contents of the retired messages in chain order, `cur` the stripped running
content of the open message, `isCont` whether the open message is a
continuation (its full content then also carries the wrapper opening, whose
length enters the overflow test). -/
structure AbsState where
  outs : List Str
  cur : Str
  isCont : Bool
deriving DecidableEq

def absRetire (a : AbsState) (slice : Str) : AbsState :=
  { outs := a.outs ++ [a.cur], cur := slice ++ contSuf, isCont := true }

def absWrapLen (a : AbsState) : Nat := if a.isCont then contPre.length else 0

/-- Modelled from the spec (§4.3 step 4 and §4.4), with the correction the
code forces: every pagination slice leaves a trailing `" \n\n"` (the wrapper
closing) inside the stripped content stream. -/
def absApply (c : Str) (a : AbsState) : AbsState :=
  if c = [] then a
  else if absWrapLen a + a.cur.length + c.length > comfyMessageLength then
    (pyChunks comfyMessageLength c).foldl absRetire a
  else { a with cur := a.cur ++ c }

def absRun (cs : List Str) : AbsState :=
  cs.foldl (fun a c => absApply c a) { outs := [], cur := [], isCont := false }

/-- Wrapper opening carried by the i-th chain message (the first message has
none; with an empty `message_prefix` every later one carries `contPre`). -/
def wrapAt (i : Nat) : Str := if i = 0 then [] else contPre

/-- Expected server contents of the retired chain messages, given their
stripped cores: wrapper opening, core, footer linking to the next message. -/
def retiredContents (cfg : Config) : Nat → List Str → List Str
  | _, [] => []
  | i, core :: rest =>
    (wrapAt i ++ core ++ footerPre ++ cfg.urls (i + 1)) :: retiredContents cfg (i + 1) rest

/-- Coupling between the concrete responder state and the stripped-content
model (for sessions with an empty `message_prefix`). -/
def Coupled (cfg : Config) (ic : Str) (s : ResponderState) (a : AbsState) : Prop :=
  ∃ front lastR,
    s.arena = front ++ [lastR] ∧
    front.length = a.outs.length ∧
    s.currentMsg = a.outs.length ∧
    front.map MsgRec.serverContent = retiredContents cfg 0 a.outs ∧
    a.isCont = decide (a.outs.length ≠ 0) ∧
    s.messageContent = wrapAt a.outs.length ++ a.cur ∧
    (lastR.serverContent = s.messageContent ∨
      (a.outs = [] ∧ a.cur = [] ∧ lastR.serverContent = ic))

/-- `SepText t b`: `t` is newline-free text interleaved with exact `" \n\n"`
separators, and `b` is that text with the separators removed. -/
inductive SepText : Str → Str → Prop
  | base (a : Str) : '\n' ∉ a → SepText a a
  | step (a t b : Str) : '\n' ∉ a → SepText t b → SepText (a ++ contSuf ++ t) (a ++ b)

/-- Length bounds maintained throughout a session whose `message_prefix` is
empty and whose jump URLs are at most 342 characters long: the running
buffer stays within the comfortable ceiling plus the 25-character
continuation wrapper, and every message content and edit payload stays
within the hard maximum. -/
def Bounded (s : ResponderState) : Prop :=
  s.messageContent.length ≤ comfyMessageLength + 25 ∧
  (∀ m ∈ s.arena, m.serverContent.length ≤ maxMessageLength) ∧
  (∀ p ∈ s.editLog, p.length ≤ maxMessageLength)

/-- The stripped text of the whole chain in the stripped-content model. -/
def absText (a : AbsState) : Str := a.outs.flatten ++ a.cur

/-- `strippedOutputsAux`, expressed on the bare content strings. -/
def stripContents (cfg : Config) : Nat → List Str → List Str
  | _, [] => []
  | i, c :: rest =>
    dropPrefixIf contPre (dropSuffixIf (footerPre ++ cfg.urls (i + 1)) c) ::
      stripContents cfg (i + 1) rest

/-! Concrete inputs used by counterexamples and witnesses. -/

/-- A concrete session configuration: empty `message_prefix` (the default),
a bot name, and a fixed jump URL for every created message. -/
def cfgA : Config :=
  { messagePrefix := []
    botName := pyStr "JonBot"
    urls := fun _ => pyStr "https://discord.com/channels/1/2/3" }

/-- A stand-in for `RESPONSE_INCOMING_TEXT` (its defining module is not part
of the sources; no theorem depends on its exact value). -/
def icA : Str := pyStr "Response incoming..."

def batchesC1 : List (List Str) := [[List.replicate 1601 'a']]

def batchesC5 : List (List Str) := [List.replicate 21 ['a'], [List.replicate 1600 'b']]

def batchesC6 : List (List Str) :=
  [List.replicate 21 (List.replicate 48 'a'), [List.replicate 700 'b']]

/-! Helper lemmas about the embedded Python string primitives. -/

theorem isPrefixOf_nil_false {l : Str} (h : l ≠ []) : l.isPrefixOf ([] : Str) = false := by
  cases l with
  | nil => exact absurd rfl h
  | cons a as => rfl

theorem mem_of_isPrefixOf {pre s : Str} {c : Char} (h : pre.isPrefixOf s = true)
    (hc : c ∈ pre) : c ∈ s :=
  List.IsPrefix.mem hc (List.isPrefixOf_iff_prefix.mp h)

theorem isPrefixOf_eq_false_of_not_mem {pre s : Str} {c : Char} (hc : c ∈ pre) (hs : c ∉ s) :
    pre.isPrefixOf s = false := by
  cases h : pre.isPrefixOf s with
  | false => rfl
  | true => exact absurd (mem_of_isPrefixOf h hc) hs

theorem mem_of_pyContains {pat s : Str} {c : Char} (h : pyContains pat s = true)
    (hc : c ∈ pat) : c ∈ s := by
  induction s with
  | nil =>
    simp [pyContains] at h
    subst h
    exact absurd hc (List.not_mem_nil c)
  | cons a rest ih =>
    simp only [pyContains, Bool.or_eq_true] at h
    cases h with
    | inl h => exact mem_of_isPrefixOf h hc
    | inr h => exact List.mem_cons_of_mem _ (ih h)

theorem pyContains_eq_false_of_not_mem {pat s : Str} {c : Char} (hc : c ∈ pat) (hs : c ∉ s) :
    pyContains pat s = false := by
  cases h : pyContains pat s with
  | false => rfl
  | true => exact absurd (mem_of_pyContains h hc) hs

theorem colon_mem_nameMark (b : Str) : ':' ∈ b ++ pyStr ":" :=
  List.mem_append_right b (by decide)

theorem nameMark_ne_nil (b : Str) : b ++ pyStr ":" ≠ [] :=
  List.append_ne_nil_of_right_ne_nil b (by decide)

theorem pyStartsWith_false_of_no_colon {b s : Str} (hs : ':' ∉ s) :
    pyStartsWith (b ++ pyStr ":") s = false :=
  isPrefixOf_eq_false_of_not_mem (colon_mem_nameMark b) hs

theorem pyReplaceFuel_congr (old new : Str) :
    ∀ f1 f2 s, s.length ≤ f1 → s.length ≤ f2 →
      pyReplaceFuel old new f1 s = pyReplaceFuel old new f2 s := by
  intro f1
  induction f1 with
  | zero =>
    intro f2 s h1 _
    have hs : s = [] := by
      cases s with
      | nil => rfl
      | cons c rest => simp at h1
    subst hs
    cases f2 <;> rfl
  | succ f ih =>
    intro f2 s h1 h2
    cases s with
    | nil => cases f2 <;> rfl
    | cons c rest =>
      cases f2 with
      | zero => simp at h2
      | succ f2 =>
        simp only [pyReplaceFuel]
        by_cases hm : old ≠ [] ∧ old.isPrefixOf (c :: rest) = true
        · rw [if_pos hm, if_pos hm]
          have hlen : (List.drop old.length (c :: rest)).length ≤ f := by
            have : 1 ≤ old.length := by
              cases old with
              | nil => exact absurd rfl hm.1
              | cons _ _ => simp
            simp only [List.length_drop, List.length_cons]
            simp only [List.length_cons] at h1
            omega
          have hlen2 : (List.drop old.length (c :: rest)).length ≤ f2 := by
            have : 1 ≤ old.length := by
              cases old with
              | nil => exact absurd rfl hm.1
              | cons _ _ => simp
            simp only [List.length_drop, List.length_cons]
            simp only [List.length_cons] at h2
            omega
          rw [ih _ _ hlen hlen2]
        · rw [if_neg hm, if_neg hm]
          have h1' : rest.length ≤ f := by
            simp only [List.length_cons] at h1; omega
          have h2' : rest.length ≤ f2 := by
            simp only [List.length_cons] at h2; omega
          rw [ih _ _ h1' h2']

theorem pyReplace_pos {old : Str} (new : Str) {s : Str} (h0 : old ≠ [])
    (h : old.isPrefixOf s = true) :
    pyReplace old new s = new ++ pyReplace old new (List.drop old.length s) := by
  cases s with
  | nil =>
    cases old with
    | nil => exact absurd rfl h0
    | cons a as => simp [List.isPrefixOf] at h
  | cons c rest =>
    show pyReplaceFuel old new (c :: rest).length (c :: rest) = _
    simp only [List.length_cons, pyReplaceFuel, if_pos (And.intro h0 h)]
    congr 1
    apply pyReplaceFuel_congr
    · have : 1 ≤ old.length := by
        cases old with
        | nil => exact absurd rfl h0
        | cons _ _ => simp
      simp only [List.length_drop, List.length_cons]
      omega
    · exact Nat.le_refl _

theorem pyReplace_neg {old new : Str} {c : Char} {rest : Str}
    (h : old.isPrefixOf (c :: rest) = false) :
    pyReplace old new (c :: rest) = c :: pyReplace old new rest := by
  show pyReplaceFuel old new (c :: rest).length (c :: rest) = _
  simp only [List.length_cons, pyReplaceFuel]
  rw [if_neg]
  · rfl
  · intro hm
    rw [hm.2] at h
    exact Bool.noConfusion h

theorem pyReplace_of_not_mem {old new s : Str} {c : Char} (hc : c ∈ old) (hs : c ∉ s) :
    pyReplace old new s = s := by
  induction s with
  | nil => rfl
  | cons a rest ih =>
    rw [pyReplace_neg (isPrefixOf_eq_false_of_not_mem hc hs),
      ih (fun hm => hs (List.mem_cons_of_mem _ hm))]

theorem pyChunksFuel_flatten {n : Nat} (hn : 0 < n) :
    ∀ fuel s, s.length ≤ fuel → (pyChunksFuel n fuel s).flatten = s := by
  intro fuel
  induction fuel with
  | zero =>
    intro s h
    cases s with
    | nil => rfl
    | cons c rest => simp at h
  | succ f ih =>
    intro s h
    cases s with
    | nil => rfl
    | cons c rest =>
      have hlen : (List.drop n (c :: rest)).length ≤ f := by
        simp only [List.length_drop, List.length_cons]
        simp only [List.length_cons] at h
        omega
      show (List.take n (c :: rest) :: pyChunksFuel n f (List.drop n (c :: rest))).flatten = _
      rw [List.flatten_cons, ih _ hlen]
      exact List.take_append_drop n (c :: rest)

theorem pyChunks_flatten {n : Nat} (hn : 0 < n) (s : Str) : (pyChunks n s).flatten = s :=
  pyChunksFuel_flatten hn s.length s (Nat.le_refl _)

theorem pyChunksFuel_mem {n : Nat} (hn : 0 < n) :
    ∀ fuel s slice, s.length ≤ fuel → slice ∈ pyChunksFuel n fuel s →
      slice.length ≤ n ∧ ∀ x ∈ slice, x ∈ s := by
  intro fuel
  induction fuel with
  | zero =>
    intro s slice h hm
    cases s with
    | nil => simp [pyChunksFuel] at hm
    | cons c rest => simp at h
  | succ f ih =>
    intro s slice h hm
    cases s with
    | nil => simp [pyChunksFuel] at hm
    | cons c rest =>
      simp only [pyChunksFuel, List.mem_cons] at hm
      cases hm with
      | inl hm =>
        subst hm
        constructor
        · simp [List.length_take]
        · exact fun x hx => List.take_subset n (c :: rest) hx
      | inr hm =>
        have hlen : (List.drop n (c :: rest)).length ≤ f := by
          simp only [List.length_drop, List.length_cons]
          simp only [List.length_cons] at h
          omega
        obtain ⟨h1, h2⟩ := ih _ slice hlen hm
        exact ⟨h1, fun x hx => List.drop_subset n (c :: rest) (h2 x hx)⟩

theorem pyChunks_mem {n : Nat} (hn : 0 < n) {s slice : Str} (h : slice ∈ pyChunks n s) :
    slice.length ≤ n ∧ ∀ x ∈ slice, x ∈ s :=
  pyChunksFuel_mem hn s.length s slice (Nat.le_refl _) h

/-! Helper lemmas about the arena. -/

theorem modifyAt_length (f : MsgRec → MsgRec) : ∀ i l, (modifyAt f i l).length = l.length := by
  intro i
  induction i with
  | zero => intro l; cases l <;> rfl
  | succ i ih =>
    intro l
    cases l with
    | nil => rfl
    | cons m rest => simp [modifyAt, ih]

theorem modifyAt_append_cons (f : MsgRec → MsgRec) :
    ∀ (l : List MsgRec) (x : MsgRec) (rest : List MsgRec),
      modifyAt f l.length (l ++ x :: rest) = l ++ f x :: rest := by
  intro l
  induction l with
  | nil => intro x rest; rfl
  | cons m tail ih => intro x rest; simp [modifyAt, ih]

theorem modifyAt_getElem?_self (f : MsgRec → MsgRec) :
    ∀ i l, (modifyAt f i l)[i]? = (l[i]?).map f := by
  intro i
  induction i with
  | zero =>
    intro l
    cases l <;> simp [modifyAt]
  | succ i ih =>
    intro l
    cases l with
    | nil => rfl
    | cons m rest => simp [modifyAt, ih]

theorem modifyAt_getElem?_of_ne (f : MsgRec → MsgRec) :
    ∀ i j l, i ≠ j → (modifyAt f j l)[i]? = l[i]? := by
  intro i j
  induction j generalizing i with
  | zero =>
    intro l h
    cases l with
    | nil => rfl
    | cons m rest =>
      cases i with
      | zero => exact absurd rfl h
      | succ i => rfl
  | succ j ih =>
    intro l h
    cases l with
    | nil => rfl
    | cons m rest =>
      cases i with
      | zero => simp [modifyAt]
      | succ i => simpa [modifyAt] using ih i rest (fun hh => h (by rw [hh]))

/-! Field-preservation lemmas for the writer and paginator. -/

theorem foldl_overflowSlice_done (cfg : Config) :
    ∀ (slices : List Str) (s : ResponderState),
      (slices.foldl (overflowSlice cfg) s).done = s.done := by
  intro slices
  induction slices with
  | nil => intro s; rfl
  | cons x xs ih => intro s; rw [List.foldl_cons, ih]; rfl

theorem foldl_overflowSlice_full (cfg : Config) :
    ∀ (slices : List Str) (s : ResponderState),
      (slices.foldl (overflowSlice cfg) s).fullMessageContent = s.fullMessageContent := by
  intro slices
  induction slices with
  | nil => intro s; rfl
  | cons x xs ih => intro s; rw [List.foldl_cons, ih]; rfl

theorem foldl_overflowSlice_attachment (cfg : Config) :
    ∀ (slices : List Str) (s : ResponderState),
      (slices.foldl (overflowSlice cfg) s).attachment = s.attachment := by
  intro slices
  induction slices with
  | nil => intro s; rfl
  | cons x xs ih => intro s; rw [List.foldl_cons, ih]; rfl

theorem writeChunk_done (cfg : Config) (chunk2 : Str) (s1 : ResponderState) :
    (writeChunk cfg chunk2 s1).done = s1.done := by
  unfold writeChunk
  split
  · rfl
  · split
    · exact foldl_overflowSlice_done cfg _ _
    · rfl

theorem writeChunk_full (cfg : Config) (chunk2 : Str) (s1 : ResponderState) :
    (writeChunk cfg chunk2 s1).fullMessageContent = s1.fullMessageContent := by
  unfold writeChunk
  split
  · rfl
  · split
    · exact foldl_overflowSlice_full cfg _ _
    · rfl

theorem addText_done_true (cfg : Config) (c : Str) {s : ResponderState} (h : s.done = true) :
    (addTextToReplyMessage cfg c s).done = true := by
  simp only [addTextToReplyMessage, applyCleaned]
  split
  · rfl
  · rw [writeChunk_done]
    exact h

theorem addText_full (cfg : Config) (c : Str) (s : ResponderState) :
    (addTextToReplyMessage cfg c s).fullMessageContent =
      s.fullMessageContent ++ stripName cfg c := by
  simp only [addTextToReplyMessage, applyCleaned]
  split
  · rw [writeChunk_full]
  · rw [writeChunk_full]

theorem stripName_nil (cfg : Config) : stripName cfg [] = [] := by
  unfold stripName
  rw [if_neg]
  rw [pyStartsWith_false_of_no_colon (List.not_mem_nil ':')]
  exact Bool.false_ne_true

theorem addText_nil (cfg : Config) (s : ResponderState) :
    addTextToReplyMessage cfg [] s = s := by
  have h2 : pyContains STOP_STREAMING_TOKEN ([] : Str) = false := by decide
  simp [addTextToReplyMessage, stripName_nil, h2, applyCleaned, writeChunk]

/-! Lifecycle lemmas for `shutdown`. -/

theorem sendFullTextAsAttachment_done (s : ResponderState) :
    (sendFullTextAsAttachment s).done = s.done := rfl

theorem shutdown_loopDone (cfg : Config) (ls : LoopState) : (shutdown cfg ls).loopDone = true := by
  simp only [shutdown]
  split
  · assumption
  · rfl

theorem shutdown_done (cfg : Config) (ls : LoopState) : (shutdown cfg ls).st.done = true := by
  simp only [shutdown]
  split
  · rfl
  · simp only [finishLoop]
    split
    · rw [sendFullTextAsAttachment_done]
      exact addText_done_true cfg _ rfl
    · exact addText_done_true cfg _ rfl

theorem eta_done {s : ResponderState} (h : s.done = true) :
    ({ s with done := true } : ResponderState) = s := by
  cases s
  simp_all

theorem shutdown_of_finished (cfg : Config) {ls : LoopState} (hl : ls.loopDone = true)
    (hd : ls.st.done = true) : shutdown cfg ls = ls := by
  have h1 : ({ ls with st := { ls.st with done := true } } : LoopState) = ls := by
    rw [eta_done hd]
  simp only [shutdown, h1]
  rw [if_pos hl]

/-- C8: Shutdown is idempotent: for every session state, calling
`shutdown()` twice in sequence yields exactly the same state — in
particular the same ordered message chain with the same contents — as
calling it once (the second call only re-sets the already-set `done` flag
and awaits the already-finished loop task). -/
theorem C8_shutdown_idempotent (cfg : Config) (ls : LoopState) :
    shutdown cfg (shutdown cfg ls) = shutdown cfg ls :=
  shutdown_of_finished cfg (shutdown_loopDone cfg ls) (shutdown_done cfg ls)

/-- C10: every call to `get_reply_messages` appends the currently open
message to `_reply_messages` and overwrites its stored `.content` attribute
with the running buffer `message_content`; two consecutive calls therefore
return a list ending in the same message twice, and the result is not
idempotent. -/
theorem C10_getReplyMessages (s : ResponderState) :
    (getReplyMessages (getReplyMessages s).2).1 = s.replyMessages ++ [s.currentMsg, s.currentMsg] ∧
    (getReplyMessages (getReplyMessages s).2).1 ≠ (getReplyMessages s).1 ∧
    ((getReplyMessages s).2.arena.map MsgRec.localContent)[s.currentMsg]? =
      ((s.arena.map MsgRec.localContent)[s.currentMsg]?).map (fun _ => s.messageContent) := by
  refine ⟨?_, ?_, ?_⟩
  · simp [getReplyMessages, addReplyMessageToList]
  · intro h
    apply_fun List.length at h
    simp [getReplyMessages, addReplyMessageToList] at h
  · simp only [getReplyMessages, addReplyMessageToList]
    rw [List.getElem?_map, List.getElem?_map, modifyAt_getElem?_self]
    cases s.arena[s.currentMsg]? <;> rfl

/-- C9: initializing the pipeline and immediately shutting it down with zero
fragments pushed yields exactly one Output Message whose content (both as
stored and as last sent to the surface) is exactly the initial seed content;
no edit is ever issued and no attachment is created. -/
theorem C9_empty_session (cfg : Config) (ic : Str) :
    (runResult cfg ic []).arena =
      [{ localContent := ic, serverContent := ic, jumpUrl := cfg.urls 0 }] ∧
    (runResult cfg ic []).attachment = none ∧
    (runResult cfg ic []).editLog = [] := by
  have h : runResult cfg ic [] =
      (finishLoop cfg { st := { initState cfg ic with done := true }, chunkAcc := [], loopDone := false }).st := by
    rfl
  rw [h]
  simp only [finishLoop, List.flatten_nil, addText_nil]
  norm_num [initState]

/-- C2 counterexample: pushing the single fragment `"hello STOP_STREAMING"`
with no explicit shutdown leaves the loop waiting forever: after the drain
cycle the fragment sits unflushed in the batch list (1 ≤ batch threshold 20),
`done` is still `false`, no edit has been issued, and every further empty
poll is a no-op — the loop never reaches `DONE`. -/
theorem C2_counterexample :
    ((processBatches cfgA [[pyStr "hello STOP_STREAMING"]] (initLoop cfgA icA)).st.done = false ∧
     (processBatches cfgA [[pyStr "hello STOP_STREAMING"]] (initLoop cfgA icA)).st.editLog = [] ∧
     (processBatches cfgA [[pyStr "hello STOP_STREAMING"]] (initLoop cfgA icA)).chunkAcc =
       [pyStr "hello STOP_STREAMING"]) ∧
    ∀ ls : LoopState, loopCycle cfgA [] ls = ls := by
  constructor
  · exact ⟨by decide, by decide, by decide⟩
  · intro ls
    simp [loopCycle]

/-- C2 amended: if the single fragment `"hello STOP_STREAMING"` is pushed
and `shutdown()` is invoked (as every caller in the repository does), the
delivered content of the single Output Message becomes `"hello "` with the
marker absent, and the loop terminates with `done = true`; without the
shutdown (or a batch of more than 20 fragments) the loop never reaches
`DONE`. -/
theorem C2_amended :
    (runResult cfgA icA [[pyStr "hello STOP_STREAMING"]]).done = true ∧
    (runResult cfgA icA [[pyStr "hello STOP_STREAMING"]]).arena.map MsgRec.serverContent =
      [pyStr "hello "] ∧
    (runResult cfgA icA [[pyStr "hello STOP_STREAMING"]]).editLog = [pyStr "hello "] := by
  exact ⟨by decide, by decide, by decide⟩

/-- C7 counterexample: with bot name `"JonBot"`, applying the chunk
`"JonBot:x JonBot:y"` removes *both* occurrences of `"JonBot:"` (Python
`str.replace` replaces every occurrence once the chunk starts with the
echo), so the transcript delta is `"x y"` and not the `"x JonBot:y"` the
claim demands. -/
theorem C7_counterexample :
    (addTextToReplyMessage cfgA (pyStr "JonBot:x JonBot:y") (initState cfgA icA)).fullMessageContent =
      pyStr "x y" ∧
    (addTextToReplyMessage cfgA (pyStr "JonBot:x JonBot:y") (initState cfgA icA)).fullMessageContent ≠
      pyStr "x JonBot:y" := by
  exact ⟨by decide, by decide⟩

/-- C7 amended: when a chunk is applied, the Writer leaves chunks that do
not start with the name echo `f"{bot_name}:"` completely unchanged; when the
chunk does start with the echo, it removes the leading echo *and also every
later (left-to-right, non-overlapping) occurrence of the echo in the
remainder of the chunk. -/
theorem C7_amended (cfg : Config) (c : Str) (s : ResponderState) :
    (pyStartsWith (cfg.botName ++ pyStr ":") c = false →
      (addTextToReplyMessage cfg c s).fullMessageContent = s.fullMessageContent ++ c) ∧
    (pyStartsWith (cfg.botName ++ pyStr ":") c = true →
      (addTextToReplyMessage cfg c s).fullMessageContent =
        s.fullMessageContent ++
          pyReplace (cfg.botName ++ pyStr ":") []
            (List.drop (cfg.botName ++ pyStr ":").length c)) := by
  constructor
  · intro h
    rw [addText_full]
    unfold stripName
    rw [if_neg (by rw [h]; exact Bool.false_ne_true)]
  · intro h
    rw [addText_full]
    unfold stripName
    rw [if_pos h, pyReplace_pos [] (nameMark_ne_nil cfg.botName) h]
    rfl

/-- Witness for C7 amended at a concrete chunk that starts with the echo and
contains a second occurrence of it. -/
theorem C7_amended_witness :
    pyStartsWith (cfgA.botName ++ pyStr ":") (pyStr "JonBot:x JonBot:y") = true ∧
    (addTextToReplyMessage cfgA (pyStr "JonBot:x JonBot:y") (initState cfgA icA)).fullMessageContent =
      (initState cfgA icA).fullMessageContent ++
        pyReplace (cfgA.botName ++ pyStr ":") []
          (List.drop (cfgA.botName ++ pyStr ":").length (pyStr "JonBot:x JonBot:y")) :=
  ⟨by decide, (C7_amended cfgA (pyStr "JonBot:x JonBot:y") (initState cfgA icA)).2 (by decide)⟩

/-- C6 counterexample: a run whose pagination creates exactly one
continuation message ends with a chain of two Output Messages, yet no
attachment is created (`_reply_messages` holds only the first message when
the loop finishes, and `1 > 1` fails). -/
theorem C6_counterexample :
    (runResult cfgA icA batchesC6).arena.length = 2 ∧
    (runResult cfgA icA batchesC6).attachment = none := by
  exact ⟨by decide, by decide⟩

/-! Reduction of a full session to a sequence of writer applications. -/

theorem foldl_overflowSlice_set_done (cfg : Config) :
    ∀ (slices : List Str) (s : ResponderState),
      slices.foldl (overflowSlice cfg) { s with done := true } =
        { slices.foldl (overflowSlice cfg) s with done := true } := by
  intro slices
  induction slices with
  | nil => intro s; rfl
  | cons x xs ih =>
    intro s
    rw [List.foldl_cons, List.foldl_cons]
    have h : overflowSlice cfg { s with done := true } x =
        { overflowSlice cfg s x with done := true } := rfl
    rw [h, ih]

theorem writeChunk_set_done (cfg : Config) (chunk2 : Str) (s1 : ResponderState) :
    writeChunk cfg chunk2 { s1 with done := true } =
      { writeChunk cfg chunk2 s1 with done := true } := by
  simp only [writeChunk, handleMessageLengthOverflow]
  split
  · rfl
  · split
    · exact foldl_overflowSlice_set_done cfg _ _
    · rfl

theorem addText_set_done (cfg : Config) (c : Str) (s : ResponderState) :
    addTextToReplyMessage cfg c { s with done := true } =
      { addTextToReplyMessage cfg c s with done := true } := by
  simp only [addTextToReplyMessage, applyCleaned]
  split
  · rw [show ({ s with done := true } : ResponderState).fullMessageContent = s.fullMessageContent
        from rfl]
    rw [show ({ ({ s with done := true } : ResponderState) with
          fullMessageContent := s.fullMessageContent ++ stripName cfg c } : ResponderState) =
        { ({ s with fullMessageContent := s.fullMessageContent ++ stripName cfg c } :
            ResponderState) with done := true } from rfl]
    rw [writeChunk_set_done]
  · rw [show ({ s with done := true } : ResponderState).fullMessageContent = s.fullMessageContent
        from rfl]
    rw [show ({ ({ s with done := true } : ResponderState) with
          fullMessageContent := s.fullMessageContent ++ stripName cfg c } : ResponderState) =
        { ({ s with fullMessageContent := s.fullMessageContent ++ stripName cfg c } :
            ResponderState) with done := true } from rfl]
    rw [writeChunk_set_done]

theorem loopCycle_set_done (cfg : Config) (b : List Str) (ls : LoopState) :
    loopCycle cfg b { ls with st := { ls.st with done := true } } =
      { loopCycle cfg b ls with st := { (loopCycle cfg b ls).st with done := true } } := by
  simp only [loopCycle]
  split
  · rfl
  · split
    · simp only [addText_set_done]
    · rfl

theorem processBatches_set_done (cfg : Config) :
    ∀ (bs : List (List Str)) (ls : LoopState),
      processBatches cfg bs { ls with st := { ls.st with done := true } } =
        { processBatches cfg bs ls with
          st := { (processBatches cfg bs ls).st with done := true } } := by
  intro bs
  induction bs with
  | nil => intro ls; rfl
  | cons b bs ih =>
    intro ls
    show processBatches cfg bs (loopCycle cfg b { ls with st := { ls.st with done := true } }) = _
    rw [loopCycle_set_done, ih]
    rfl

theorem processBatches_loopDone (cfg : Config) :
    ∀ (bs : List (List Str)) (ls : LoopState),
      (processBatches cfg bs ls).loopDone = ls.loopDone := by
  intro bs
  induction bs with
  | nil => intro ls; rfl
  | cons b bs ih =>
    intro ls
    show (processBatches cfg bs (loopCycle cfg b ls)).loopDone = _
    rw [ih]
    simp only [loopCycle]
    split
    · rfl
    · split
      · rfl
      · rfl

theorem finish_processBatches (cfg : Config) :
    ∀ (bs : List (List Str)) (ls : LoopState),
      (finishLoop cfg (processBatches cfg bs ls)).st =
        postAttach (applyChunks cfg (flushesAux ls.chunkAcc bs) ls.st) := by
  intro bs
  induction bs with
  | nil =>
    intro ls
    rfl
  | cons b bs ih =>
    intro ls
    show (finishLoop cfg (processBatches cfg bs (loopCycle cfg b ls))).st = _
    rw [ih (loopCycle cfg b ls)]
    by_cases hb : b = []
    · subst hb
      have h1 : loopCycle cfg [] ls = ls := by simp [loopCycle]
      have h2 : flushesAux ls.chunkAcc ([] :: bs) = flushesAux ls.chunkAcc bs := by
        simp [flushesAux]
      rw [h1, h2]
    · by_cases hlen : (ls.chunkAcc ++ b).length > chunkSizeDefault
      · have h1 : loopCycle cfg b ls =
            LoopState.mk (addTextToReplyMessage cfg ((ls.chunkAcc ++ b).flatten) ls.st)
              [] ls.loopDone := by
          simp only [loopCycle]
          rw [if_neg hb, if_pos hlen]
        have h2 : flushesAux ls.chunkAcc (b :: bs) =
            ((ls.chunkAcc ++ b).flatten) :: flushesAux [] bs := by
          simp only [flushesAux]
          rw [if_neg hb, if_pos hlen]
        rw [h1, h2]
        rfl
      · have h1 : loopCycle cfg b ls = { ls with chunkAcc := ls.chunkAcc ++ b } := by
          simp only [loopCycle]
          rw [if_neg hb, if_neg hlen]
        have h2 : flushesAux ls.chunkAcc (b :: bs) = flushesAux (ls.chunkAcc ++ b) bs := by
          simp only [flushesAux]
          rw [if_neg hb, if_neg hlen]
        rw [h1, h2]

theorem runResult_eq (cfg : Config) (ic : Str) (bs : List (List Str)) :
    runResult cfg ic bs =
      postAttach (applyChunks cfg (flushes bs) { initState cfg ic with done := true }) := by
  unfold runResult runWithShutdown shutdown
  have hld : (processBatches cfg bs (initLoop cfg ic)).loopDone = false := by
    rw [processBatches_loopDone]
    rfl
  rw [if_neg (by
    rw [show ({ processBatches cfg bs (initLoop cfg ic) with
        st := { (processBatches cfg bs (initLoop cfg ic)).st with done := true } } :
          LoopState).loopDone =
        (processBatches cfg bs (initLoop cfg ic)).loopDone from rfl, hld]
    exact Bool.false_ne_true)]
  rw [show ({ processBatches cfg bs (initLoop cfg ic) with
      st := { (processBatches cfg bs (initLoop cfg ic)).st with done := true } } : LoopState) =
      processBatches cfg bs { initLoop cfg ic with
        st := { (initLoop cfg ic).st with done := true } } from (processBatches_set_done cfg bs _).symm]
  rw [finish_processBatches cfg bs]
  rfl

/-! The transcript: every applied chunk is appended verbatim. -/

theorem stripName_no_colon (cfg : Config) {c : Str} (h : ':' ∉ c) : stripName cfg c = c := by
  unfold stripName
  rw [if_neg (by
    rw [pyStartsWith_false_of_no_colon h]
    exact Bool.false_ne_true)]

theorem postAttach_full (s : ResponderState) :
    (postAttach s).fullMessageContent = s.fullMessageContent := by
  unfold postAttach
  split <;> rfl

theorem applyChunks_full (cfg : Config) :
    ∀ (cs : List Str) (s : ResponderState), (∀ c ∈ cs, ':' ∉ c) →
      (applyChunks cfg cs s).fullMessageContent = s.fullMessageContent ++ cs.flatten := by
  intro cs
  induction cs with
  | nil =>
    intro s _
    exact (List.append_nil _).symm
  | cons c cs ih =>
    intro s H
    show (applyChunks cfg cs (addTextToReplyMessage cfg c s)).fullMessageContent = _
    rw [ih _ (fun x hx => H x (List.mem_cons_of_mem _ hx)), addText_full,
      stripName_no_colon cfg (H c (List.mem_cons_self c cs)), List.flatten_cons,
      List.append_assoc]

theorem flushesAux_no_colon :
    ∀ (bs : List (List Str)) (acc : List Str),
      (∀ t ∈ acc, ':' ∉ t) → (∀ b ∈ bs, ∀ t ∈ b, ':' ∉ t) →
      ∀ ch ∈ flushesAux acc bs, ':' ∉ ch := by
  intro bs
  induction bs with
  | nil =>
    intro acc hacc _ ch hch hmem
    simp only [flushesAux, List.mem_singleton] at hch
    subst hch
    obtain ⟨t, ht, hmt⟩ := List.mem_flatten.mp hmem
    exact hacc t ht hmt
  | cons b bs ih =>
    intro acc hacc H ch hch
    by_cases hb : b = []
    · subst hb
      rw [show flushesAux acc ([] :: bs) = flushesAux acc bs from by simp [flushesAux]] at hch
      exact ih acc hacc (fun b hb => H b (List.mem_cons_of_mem _ hb)) ch hch
    · by_cases hlen : (acc ++ b).length > chunkSizeDefault
      · rw [show flushesAux acc (b :: bs) = ((acc ++ b).flatten) :: flushesAux [] bs from by
          simp only [flushesAux]; rw [if_neg hb, if_pos hlen]] at hch
        rcases List.mem_cons.mp hch with h1 | h1
        · subst h1
          intro hmem
          obtain ⟨t, ht, hmt⟩ := List.mem_flatten.mp hmem
          rcases List.mem_append.mp ht with h2 | h2
          · exact hacc t h2 hmt
          · exact H b (List.mem_cons_self b bs) t h2 hmt
        · exact ih [] (by simp) (fun b hb => H b (List.mem_cons_of_mem _ hb)) ch h1
      · rw [show flushesAux acc (b :: bs) = flushesAux (acc ++ b) bs from by
          simp only [flushesAux]; rw [if_neg hb, if_neg hlen]] at hch
        refine ih (acc ++ b) ?_ (fun b hb => H b (List.mem_cons_of_mem _ hb)) ch hch
        intro t ht
        rcases List.mem_append.mp ht with h2 | h2
        · exact hacc t h2
        · exact H b (List.mem_cons_self b bs) t h2

theorem flushesAux_flatten :
    ∀ (bs : List (List Str)) (acc : List Str),
      (flushesAux acc bs).flatten = acc.flatten ++ bs.flatten.flatten := by
  intro bs
  induction bs with
  | nil =>
    intro acc
    simp [flushesAux]
  | cons b bs ih =>
    intro acc
    by_cases hb : b = []
    · subst hb
      rw [show flushesAux acc ([] :: bs) = flushesAux acc bs from by simp [flushesAux]]
      rw [ih]
      simp
    · by_cases hlen : (acc ++ b).length > chunkSizeDefault
      · rw [show flushesAux acc (b :: bs) = ((acc ++ b).flatten) :: flushesAux [] bs from by
          simp only [flushesAux]; rw [if_neg hb, if_pos hlen]]
        rw [List.flatten_cons, ih]
        simp [List.flatten_append, List.append_assoc]
      · rw [show flushesAux acc (b :: bs) = flushesAux (acc ++ b) bs from by
          simp only [flushesAux]; rw [if_neg hb, if_neg hlen]]
        rw [ih]
        simp [List.flatten_append, List.append_assoc]

/-- C3: with an in-order drain schedule, every fragment pushed before the
loop exits — including fragments drained after the termination flag is set —
is applied to the transcript exactly once and in order: after the loop's
trailing flush, `_full_message_content` is precisely the concatenation of
all pushed fragments.  (The hypothesis excludes colons from the fragments so
that the writer's documented bot-name-echo normalization does not rewrite
any flushed chunk.) -/
theorem drained_transcript_complete (cfg : Config) (ic : Str) (bs : List (List Str))
    (H : ∀ b ∈ bs, ∀ t ∈ b, ':' ∉ t) :
    (runResult cfg ic bs).fullMessageContent = bs.flatten.flatten := by
  rw [runResult_eq, postAttach_full,
    applyChunks_full cfg (flushes bs) _ (flushesAux_no_colon bs [] (by simp) H)]
  show ([] : Str) ++ (flushes bs).flatten = _
  rw [List.nil_append, flushes, flushesAux_flatten]
  rfl

theorem runEvents_append (cfg : Config) (l1 l2 : List SessionEv) (s : Session) :
    runEvents cfg (l1 ++ l2) s = runEvents cfg l2 (runEvents cfg l1 s) := by
  unfold runEvents
  exact List.foldl_append (sessionStep cfg) s l1 l2

theorem runEvents_pushes (cfg : Config) :
    ∀ (b : List Str) (s : Session),
      runEvents cfg (b.map SessionEv.push) s = { s with queue := s.queue ++ b } := by
  intro b
  induction b with
  | nil =>
    intro s
    rw [List.append_nil]
    rfl
  | cons t b ih =>
    intro s
    show runEvents cfg (b.map SessionEv.push) { s with queue := s.queue ++ [t] } = _
    rw [ih]
    show Session.mk ((s.queue ++ [t]) ++ b) s.st s.chunkAcc s.phase =
      Session.mk (s.queue ++ t :: b) s.st s.chunkAcc s.phase
    rw [List.append_assoc]
    rfl

theorem runEvents_round (cfg : Config) (b : List Str) (hb : b ≠ []) (ls : LoopState) :
    runEvents cfg (b.map SessionEv.push ++ [SessionEv.wake]) (sessionOf ls) =
      sessionOf (loopCycle cfg b ls) := by
  rw [runEvents_append, runEvents_pushes]
  show wakeStep cfg (Session.mk ([] ++ b) ls.st ls.chunkAcc LoopPhase.polling) =
    sessionOf (loopCycle cfg b ls)
  rw [List.nil_append]
  simp only [wakeStep]
  rw [if_neg hb]
  by_cases hacc : (ls.chunkAcc ++ b).length > chunkSizeDefault
  · have hc : loopCycle cfg b ls =
        LoopState.mk (addTextToReplyMessage cfg (ls.chunkAcc ++ b).flatten ls.st) []
          ls.loopDone := by
      simp only [loopCycle]
      rw [if_neg hb, if_pos hacc]
    rw [hc]
    simp only [drainStep]
    rw [if_pos hacc]
    rfl
  · have hc : loopCycle cfg b ls = { ls with chunkAcc := ls.chunkAcc ++ b } := by
      simp only [loopCycle]
      rw [if_neg hb, if_neg hacc]
    rw [hc]
    simp only [drainStep]
    rw [if_neg hacc]
    rfl

theorem runEvents_rounds (cfg : Config) :
    ∀ (bs : List (List Str)), (∀ b ∈ bs, b ≠ []) → ∀ (ls : LoopState),
      runEvents cfg (canonRounds bs) (sessionOf ls) =
        sessionOf (processBatches cfg bs ls) := by
  intro bs
  induction bs with
  | nil =>
    intro _ ls
    rfl
  | cons b bs ih =>
    intro hb ls
    show runEvents cfg (b.map SessionEv.push ++ [SessionEv.wake] ++ canonRounds bs)
      (sessionOf ls) = _
    rw [runEvents_append, runEvents_round cfg b (hb b (List.mem_cons_self b bs)) ls]
    exact ih (fun x hx => hb x (List.mem_cons_of_mem b hx)) (loopCycle cfg b ls)

theorem runEvents_finale (cfg : Config) (ls : LoopState) :
    runEvents cfg [SessionEv.setDone, SessionEv.wake, SessionEv.wake] (sessionOf ls) =
      Session.mk []
        (finishLoop cfg { ls with st := { ls.st with done := true } }).st
        [] LoopPhase.finished := rfl

theorem runEvents_canonSchedule (cfg : Config) (ic : Str) (bs : List (List Str))
    (hb : ∀ b ∈ bs, b ≠ []) :
    runEvents cfg (canonSchedule bs) (initSession cfg ic) =
      Session.mk [] (runResult cfg ic bs) [] LoopPhase.finished := by
  show runEvents cfg (canonRounds bs ++ [SessionEv.setDone, SessionEv.wake, SessionEv.wake])
    (sessionOf (initLoop cfg ic)) = _
  rw [runEvents_append, runEvents_rounds cfg bs hb (initLoop cfg ic),
    runEvents_finale cfg (processBatches cfg bs (initLoop cfg ic))]
  have hld : (processBatches cfg bs (initLoop cfg ic)).loopDone = false := by
    rw [processBatches_loopDone]
    rfl
  have hst : (finishLoop cfg { processBatches cfg bs (initLoop cfg ic) with
      st := { (processBatches cfg bs (initLoop cfg ic)).st with done := true } }).st =
      runResult cfg ic bs := by
    unfold runResult runWithShutdown shutdown
    rw [if_neg (by
      rw [show ({ processBatches cfg bs (initLoop cfg ic) with
          st := { (processBatches cfg bs (initLoop cfg ic)).st with done := true } } :
            LoopState).loopDone =
          (processBatches cfg bs (initLoop cfg ic)).loopDone from rfl, hld]
      exact Bool.false_ne_true)]
  rw [hst]

theorem pushedTokens_append (l1 l2 : List SessionEv) :
    pushedTokens (l1 ++ l2) = pushedTokens l1 ++ pushedTokens l2 := by
  unfold pushedTokens
  rw [List.filterMap_append]

theorem pushedTokens_pushes (b : List Str) :
    pushedTokens (b.map SessionEv.push) = b := by
  induction b with
  | nil => rfl
  | cons t b ih =>
    show t :: pushedTokens (b.map SessionEv.push) = t :: b
    rw [ih]

theorem pushedTokens_canonRounds :
    ∀ (bs : List (List Str)), pushedTokens (canonRounds bs) = bs.flatten := by
  intro bs
  induction bs with
  | nil => rfl
  | cons b bs ih =>
    show pushedTokens (b.map SessionEv.push ++ [SessionEv.wake] ++ canonRounds bs) =
      b ++ bs.flatten
    rw [pushedTokens_append, pushedTokens_append, pushedTokens_pushes, ih,
      show pushedTokens [SessionEv.wake] = [] from rfl, List.append_nil]

theorem pushedTokens_canonSchedule (bs : List (List Str)) :
    pushedTokens (canonSchedule bs) = bs.flatten := by
  show pushedTokens (canonRounds bs ++ [SessionEv.setDone, SessionEv.wake, SessionEv.wake]) = _
  rw [pushedTokens_append, pushedTokens_canonRounds,
    show pushedTokens [SessionEv.setDone, SessionEv.wake, SessionEv.wake] = [] from rfl,
    List.append_nil]

/-- On every canonical drained schedule — each batch pushed in full before
the poll that drains it, `shutdown()` once the queue is empty, nothing
pushed during the final window — every pushed fragment is delivered: the
final transcript is the concatenation of the pushed fragments, the queue
ends empty, and the loop finishes.  (Batches are nonempty, since an empty
drain cannot happen at a non-empty poll; fragments are ':'-free so the
bot-name-echo normalization rewrites nothing.) -/
theorem canonSchedule_complete (cfg : Config) (ic : Str) (bs : List (List Str))
    (hb : ∀ b ∈ bs, b ≠ []) (H : ∀ b ∈ bs, ∀ t ∈ b, ':' ∉ t) :
    pushedTokens (canonSchedule bs) = bs.flatten ∧
    (runEvents cfg (canonSchedule bs) (initSession cfg ic)).st.fullMessageContent =
      (pushedTokens (canonSchedule bs)).flatten ∧
    (runEvents cfg (canonSchedule bs) (initSession cfg ic)).queue = [] ∧
    (runEvents cfg (canonSchedule bs) (initSession cfg ic)).phase = LoopPhase.finished := by
  have hrun := runEvents_canonSchedule cfg ic bs hb
  refine ⟨pushedTokens_canonSchedule bs, ?_, ?_, ?_⟩
  · rw [hrun, pushedTokens_canonSchedule]
    exact drained_transcript_complete cfg ic bs H
  · rw [hrun]
  · rw [hrun]

/-- C3: the loop's `DONE` transition does not re-check the queue, and a
fragment pushed during the final polling window is dropped.  In the
schedule where the loop first observes an empty queue, then — during the
ensuing `base_delay` sleep — the producer pushes `"hello"` and `shutdown()`
sets `done`, the loop breaks with the fragment still queued: the session
finishes, the pushed-fragment list is `["hello"]`, yet the transcript is
empty and the fragment sits undrained in the queue, refuting the claim
that every fragment pushed before loop exit appears in the output. -/
theorem C3_dropped_fragment :
    pushedTokens [SessionEv.wake, SessionEv.push (pyStr "hello"), SessionEv.setDone,
      SessionEv.wake] = [pyStr "hello"] ∧
    (runEvents cfgA [SessionEv.wake, SessionEv.push (pyStr "hello"), SessionEv.setDone,
      SessionEv.wake] (initSession cfgA icA)).phase = LoopPhase.finished ∧
    (runEvents cfgA [SessionEv.wake, SessionEv.push (pyStr "hello"), SessionEv.setDone,
      SessionEv.wake] (initSession cfgA icA)).st.fullMessageContent = [] ∧
    (runEvents cfgA [SessionEv.wake, SessionEv.push (pyStr "hello"), SessionEv.setDone,
      SessionEv.wake] (initSession cfgA icA)).queue = [pyStr "hello"] :=
  ⟨rfl, rfl, rfl, rfl⟩

/-! Length bounds (C4). -/

theorem mem_modifyAt :
    ∀ (f : MsgRec → MsgRec) (i : Nat) (l : List MsgRec) (m : MsgRec),
      m ∈ modifyAt f i l → m ∈ l ∨ ∃ m0 ∈ l, m = f m0 := by
  intro f i
  induction i with
  | zero =>
    intro l m hm
    cases l with
    | nil => simp [modifyAt] at hm
    | cons x rest =>
      rcases List.mem_cons.mp hm with h | h
      · exact Or.inr ⟨x, List.mem_cons_self x rest, h⟩
      · exact Or.inl (List.mem_cons_of_mem _ h)
  | succ i ih =>
    intro l m hm
    cases l with
    | nil => simp [modifyAt] at hm
    | cons x rest =>
      rcases List.mem_cons.mp hm with h | h
      · exact Or.inl (h ▸ List.mem_cons_self x rest)
      · rcases ih rest m h with h1 | ⟨m0, hm0, he⟩
        · exact Or.inl (List.mem_cons_of_mem _ h1)
        · exact Or.inr ⟨m0, List.mem_cons_of_mem _ hm0, he⟩

theorem contPre_len : contPre.length = 22 := by decide

theorem contSuf_len : contSuf.length = 3 := by decide

theorem footerPre_len : footerPre.length = 33 := by decide

theorem overflowSlice_bounded (cfg : Config) (hP : cfg.messagePrefix = [])
    (hU : ∀ k, (cfg.urls k).length ≤ 342) {s : ResponderState} {slice : Str}
    (hs : slice.length ≤ comfyMessageLength) (hb : Bounded s) :
    Bounded (overflowSlice cfg s slice) := by
  obtain ⟨h1, h2, h3⟩ := hb
  have hseed : (cfg.messagePrefix ++ contPre ++ slice ++ contSuf).length ≤
      comfyMessageLength + 25 := by
    rw [hP]
    simp only [List.nil_append, List.length_append, contPre_len, contSuf_len]
    simp only [comfyMessageLength] at hs ⊢
    omega
  have hfoot : ∀ k, (s.messageContent ++ footerPre ++ cfg.urls k).length ≤ maxMessageLength := by
    intro k
    have := hU k
    simp only [List.length_append, footerPre_len]
    simp only [comfyMessageLength] at h1
    simp only [maxMessageLength]
    omega
  refine ⟨?_, ?_, ?_⟩
  · exact hseed
  · intro m hm
    simp only [overflowSlice, addReplyMessageToList, editCurrent] at hm
    rcases mem_modifyAt _ _ _ _ hm with hm1 | ⟨m0, hm0, he0⟩
    · rcases mem_modifyAt _ _ _ _ hm1 with hm2 | ⟨m1, hm1', he1⟩
      · rcases List.mem_append.mp hm2 with h4 | h4
        · exact h2 m h4
        · rw [List.mem_singleton.mp h4]
          exact le_trans hseed (by simp [comfyMessageLength, maxMessageLength])
      · rw [he1]
        exact hfoot _
    · rcases mem_modifyAt _ _ _ _ hm0 with hm2 | ⟨m1, hm1', he1⟩
      · rw [he0]
        rcases List.mem_append.mp hm2 with h4 | h4
        · exact h2 m0 h4
        · rw [List.mem_singleton.mp h4]
          exact le_trans hseed (by simp [comfyMessageLength, maxMessageLength])
      · rw [he0, he1]
        exact hfoot _
  · intro p hp
    simp only [overflowSlice, addReplyMessageToList, editCurrent] at hp
    rcases List.mem_append.mp hp with h4 | h4
    · exact h3 p h4
    · rw [List.mem_singleton.mp h4]
      exact hfoot _

theorem foldl_overflowSlice_bounded (cfg : Config) (hP : cfg.messagePrefix = [])
    (hU : ∀ k, (cfg.urls k).length ≤ 342) :
    ∀ (slices : List Str) (s : ResponderState),
      (∀ sl ∈ slices, sl.length ≤ comfyMessageLength) → Bounded s →
      Bounded (slices.foldl (overflowSlice cfg) s) := by
  intro slices
  induction slices with
  | nil => intro s _ hb; exact hb
  | cons x xs ih =>
    intro s hs hb
    rw [List.foldl_cons]
    exact ih _ (fun sl hsl => hs sl (List.mem_cons_of_mem _ hsl))
      (overflowSlice_bounded cfg hP hU (hs x (List.mem_cons_self x xs)) hb)

theorem writeChunk_bounded (cfg : Config) (hP : cfg.messagePrefix = [])
    (hU : ∀ k, (cfg.urls k).length ≤ 342) (chunk2 : Str) {s1 : ResponderState}
    (hb : Bounded s1) : Bounded (writeChunk cfg chunk2 s1) := by
  obtain ⟨h1, h2, h3⟩ := hb
  unfold writeChunk handleMessageLengthOverflow
  split
  · exact ⟨h1, h2, h3⟩
  · split
    · refine foldl_overflowSlice_bounded cfg hP hU _ _ ?_ ⟨h1, h2, h3⟩
      intro sl hsl
      exact (pyChunks_mem (by decide) hsl).1
    · rename_i hne hlen
      have hmc : (s1.messageContent ++ chunk2).length ≤ comfyMessageLength := by
        simp only [List.length_append]
        omega
      refine ⟨?_, ?_, ?_⟩
      · exact le_trans hmc (by omega)
      · intro m hm
        simp only [editCurrent] at hm
        rcases mem_modifyAt _ _ _ _ hm with hm1 | ⟨m0, hm0, he0⟩
        · exact h2 m hm1
        · rw [he0]
          exact le_trans hmc (by simp [comfyMessageLength, maxMessageLength])
      · intro p hp
        simp only [editCurrent] at hp
        rcases List.mem_append.mp hp with h4 | h4
        · exact h3 p h4
        · rw [List.mem_singleton.mp h4]
          exact le_trans hmc (by simp [comfyMessageLength, maxMessageLength])

theorem addText_bounded (cfg : Config) (hP : cfg.messagePrefix = [])
    (hU : ∀ k, (cfg.urls k).length ≤ 342) (c : Str) {s : ResponderState}
    (hb : Bounded s) : Bounded (addTextToReplyMessage cfg c s) := by
  simp only [addTextToReplyMessage, applyCleaned]
  have hb1 : Bounded { s with fullMessageContent := s.fullMessageContent ++ stripName cfg c } := hb
  split
  · exact writeChunk_bounded cfg hP hU _ hb1
  · exact writeChunk_bounded cfg hP hU _ hb1

theorem applyChunks_bounded (cfg : Config) (hP : cfg.messagePrefix = [])
    (hU : ∀ k, (cfg.urls k).length ≤ 342) :
    ∀ (cs : List Str) {s : ResponderState}, Bounded s → Bounded (applyChunks cfg cs s) := by
  intro cs
  induction cs with
  | nil => intro s hb; exact hb
  | cons c cs ih =>
    intro s hb
    exact ih (addText_bounded cfg hP hU c hb)

theorem postAttach_bounded {s : ResponderState} (hb : Bounded s) : Bounded (postAttach s) := by
  unfold postAttach
  split
  · exact hb
  · exact hb

/-- C4: with the default configuration (hard maximum 2000, comfortable
ceiling 1600), an empty `message_prefix`, an initial seed within the hard
maximum and jump URLs of at most 342 characters (Discord jump URLs are
under 100), every message content ever held by the chain and the payload of
every `edit(content=...)` call stays within the hard maximum, at every
point of every drain schedule. -/
theorem C4_length_invariant (cfg : Config) (ic : Str) (bs : List (List Str))
    (hP : cfg.messagePrefix = []) (hic : ic.length ≤ maxMessageLength)
    (hU : ∀ k, (cfg.urls k).length ≤ 342) :
    (∀ m ∈ (runResult cfg ic bs).arena, m.serverContent.length ≤ maxMessageLength) ∧
    (∀ p ∈ (runResult cfg ic bs).editLog, p.length ≤ maxMessageLength) := by
  have hinit : Bounded ({ initState cfg ic with done := true } : ResponderState) := by
    refine ⟨?_, ?_, ?_⟩
    · show cfg.messagePrefix.length ≤ comfyMessageLength + 25
      rw [hP]
      simp
    · intro m hm
      rw [List.mem_singleton.mp hm]
      exact hic
    · intro p hp
      simp [initState] at hp
  have h := postAttach_bounded (applyChunks_bounded cfg hP hU (flushes bs) hinit)
  rw [runResult_eq]
  exact ⟨h.2.1, h.2.2⟩

theorem cfgA_urls_short : ∀ k, (cfgA.urls k).length ≤ 342 := by
  intro k
  show (pyStr "https://discord.com/channels/1/2/3").length ≤ 342
  decide

/-- Witness for C4 at a concrete configuration and schedule. -/
theorem C4_length_invariant_witness :
    cfgA.messagePrefix = [] ∧ icA.length ≤ maxMessageLength ∧
    (∀ k, (cfgA.urls k).length ≤ 342) ∧
    ((∀ m ∈ (runResult cfgA icA [[pyStr "hi"]]).arena,
        m.serverContent.length ≤ maxMessageLength) ∧
     (∀ p ∈ (runResult cfgA icA [[pyStr "hi"]]).editLog,
        p.length ≤ maxMessageLength)) :=
  ⟨rfl, by decide, cfgA_urls_short,
    C4_length_invariant cfgA icA [[pyStr "hi"]] rfl (by decide) cfgA_urls_short⟩

/-! Chain counting (C6). -/

theorem writeChunk_attachment (cfg : Config) (chunk2 : Str) (s1 : ResponderState) :
    (writeChunk cfg chunk2 s1).attachment = s1.attachment := by
  unfold writeChunk handleMessageLengthOverflow
  split
  · rfl
  · split
    · exact foldl_overflowSlice_attachment cfg _ _
    · rfl

theorem addText_attachment (cfg : Config) (c : Str) (s : ResponderState) :
    (addTextToReplyMessage cfg c s).attachment = s.attachment := by
  simp only [addTextToReplyMessage, applyCleaned]
  split
  · exact writeChunk_attachment cfg _ _
  · exact writeChunk_attachment cfg _ _

theorem applyChunks_attachment (cfg : Config) :
    ∀ (cs : List Str) (s : ResponderState), (applyChunks cfg cs s).attachment = s.attachment := by
  intro cs
  induction cs with
  | nil => intro s; rfl
  | cons c cs ih =>
    intro s
    show (applyChunks cfg cs (addTextToReplyMessage cfg c s)).attachment = _
    rw [ih, addText_attachment]

theorem overflowSlice_count (cfg : Config) (s : ResponderState) (slice : Str) :
    (overflowSlice cfg s slice).replyMessages.length = s.replyMessages.length + 1 ∧
    (overflowSlice cfg s slice).arena.length = s.arena.length + 1 := by
  simp [overflowSlice, addReplyMessageToList, editCurrent, modifyAt_length]

theorem foldl_overflowSlice_count (cfg : Config) :
    ∀ (slices : List Str) (s : ResponderState),
      (slices.foldl (overflowSlice cfg) s).replyMessages.length =
        s.replyMessages.length + slices.length ∧
      (slices.foldl (overflowSlice cfg) s).arena.length = s.arena.length + slices.length := by
  intro slices
  induction slices with
  | nil => intro s; exact ⟨rfl, rfl⟩
  | cons x xs ih =>
    intro s
    rw [List.foldl_cons]
    obtain ⟨ha, hb⟩ := ih (overflowSlice cfg s x)
    obtain ⟨hc, hd⟩ := overflowSlice_count cfg s x
    constructor
    · rw [ha, hc]
      simp [Nat.add_comm, Nat.add_assoc, Nat.add_left_comm]
    · rw [hb, hd]
      simp [Nat.add_comm, Nat.add_assoc, Nat.add_left_comm]

theorem writeChunk_count (cfg : Config) (chunk2 : Str) (s1 : ResponderState)
    (h : s1.replyMessages.length + 1 = s1.arena.length) :
    (writeChunk cfg chunk2 s1).replyMessages.length + 1 =
      (writeChunk cfg chunk2 s1).arena.length := by
  unfold writeChunk handleMessageLengthOverflow
  split
  · exact h
  · split
    · obtain ⟨ha, hb⟩ := foldl_overflowSlice_count cfg (pyChunks comfyMessageLength chunk2) s1
      rw [ha, hb]
      omega
    · simpa [editCurrent, modifyAt_length] using h

theorem addText_count (cfg : Config) (c : Str) (s : ResponderState)
    (h : s.replyMessages.length + 1 = s.arena.length) :
    (addTextToReplyMessage cfg c s).replyMessages.length + 1 =
      (addTextToReplyMessage cfg c s).arena.length := by
  simp only [addTextToReplyMessage, applyCleaned]
  split
  · exact writeChunk_count cfg _ _ h
  · exact writeChunk_count cfg _ _ h

theorem applyChunks_count (cfg : Config) :
    ∀ (cs : List Str) (s : ResponderState),
      s.replyMessages.length + 1 = s.arena.length →
      (applyChunks cfg cs s).replyMessages.length + 1 = (applyChunks cfg cs s).arena.length := by
  intro cs
  induction cs with
  | nil => intro s h; exact h
  | cons c cs ih =>
    intro s h
    exact ih _ (addText_count cfg c s h)

theorem postAttach_attach_iff (s : ResponderState) (h0 : s.attachment = none)
    (hc : s.replyMessages.length + 1 = s.arena.length) :
    (postAttach s).attachment.isSome = true ↔ 2 < (postAttach s).arena.length := by
  unfold postAttach
  split
  · rename_i hgt
    simp only [sendFullTextAsAttachment, Option.isSome_some, true_iff]
    omega
  · rename_i hle
    rw [h0]
    simp only [Option.isSome_none, Bool.false_eq_true, false_iff]
    omega

/-- C6 amended: the Finalizer checks `len(self._reply_messages) > 1`, and at
that moment `_reply_messages` holds every chain message *except* the still
current one; the transcript attachment is therefore created if and only if
at least two pagination slices occurred, i.e. iff the chain has **more than
two** messages.  In particular a run with exactly one pagination (chain
length 2) gets no attachment. -/
theorem C6_amended (cfg : Config) (ic : Str) (bs : List (List Str)) :
    (runResult cfg ic bs).attachment.isSome = true ↔
      2 < (runResult cfg ic bs).arena.length := by
  rw [runResult_eq]
  exact postAttach_attach_iff _
    (by rw [applyChunks_attachment]; rfl)
    (applyChunks_count cfg (flushes bs) _ rfl)

/-! Pagination shape and frozen-message lemmas (C5). -/

theorem pyChunksFuel_nil (n : Nat) : ∀ fuel, pyChunksFuel n fuel [] = [] := by
  intro fuel
  cases fuel <;> rfl

theorem pyChunks_single {n : Nat} {s : Str} (h1 : s ≠ []) (h2 : s.length ≤ n) :
    pyChunks n s = [s] := by
  cases s with
  | nil => exact absurd rfl h1
  | cons c rest =>
    show pyChunksFuel n (rest.length + 1) (c :: rest) = [c :: rest]
    simp only [pyChunksFuel]
    rw [List.take_of_length_le h2, List.drop_of_length_le h2, pyChunksFuel_nil]

theorem pyChunks_ne_nil {n : Nat} {s : Str} (h : s ≠ []) : pyChunks n s ≠ [] := by
  cases s with
  | nil => exact absurd rfl h
  | cons c rest =>
    show pyChunksFuel n (rest.length + 1) (c :: rest) ≠ []
    simp only [pyChunksFuel]
    exact List.cons_ne_nil _ _

theorem mem_of_getLast?_eq {l : List Str} {a : Str} (h : l.getLast? = some a) : a ∈ l := by
  induction l with
  | nil => simp at h
  | cons x xs ih =>
    cases xs with
    | nil =>
      simp at h
      simp [h]
    | cons y ys =>
      rw [List.getLast?_cons_cons] at h
      exact List.mem_cons_of_mem _ (ih h)

theorem flatten_replicate_singleton (a : Char) :
    ∀ n, (List.replicate n ([a] : Str)).flatten = List.replicate n a := by
  intro n
  induction n with
  | zero => rfl
  | succ n ih => simp [List.replicate_succ, ih]

theorem overflowSlice_mc (cfg : Config) (s : ResponderState) (slice : Str) :
    (overflowSlice cfg s slice).messageContent =
      cfg.messagePrefix ++ contPre ++ slice ++ contSuf := rfl

theorem overflowSlice_cur (cfg : Config) (s : ResponderState) (slice : Str) :
    (overflowSlice cfg s slice).currentMsg = s.arena.length := rfl

theorem overflowSlice_len (cfg : Config) (s : ResponderState) (slice : Str) :
    (overflowSlice cfg s slice).arena.length = s.arena.length + 1 := by
  simp [overflowSlice, addReplyMessageToList, editCurrent, modifyAt_length]

theorem overflowSlice_newRec (cfg : Config) (s : ResponderState) (slice : Str)
    (hcur : s.currentMsg + 1 = s.arena.length) :
    (overflowSlice cfg s slice).arena[s.arena.length]? =
      some { localContent := cfg.messagePrefix ++ contPre ++ slice ++ contSuf
             serverContent := cfg.messagePrefix ++ contPre ++ slice ++ contSuf
             jumpUrl := cfg.urls s.arena.length } := by
  have hne : s.arena.length ≠ s.currentMsg := by omega
  simp only [overflowSlice, addReplyMessageToList, editCurrent]
  rw [modifyAt_getElem?_of_ne _ _ _ _ hne, modifyAt_getElem?_of_ne _ _ _ _ hne,
    List.getElem?_append_right (Nat.le_refl _)]
  simp

theorem overflowSlice_frozen (cfg : Config) (s : ResponderState) (slice : Str)
    {i : Nat} (hi : i < s.currentMsg) (hcur : s.currentMsg + 1 = s.arena.length) :
    (overflowSlice cfg s slice).arena[i]? = s.arena[i]? := by
  have hne : i ≠ s.currentMsg := by omega
  simp only [overflowSlice, addReplyMessageToList, editCurrent]
  rw [modifyAt_getElem?_of_ne _ _ _ _ hne, modifyAt_getElem?_of_ne _ _ _ _ hne,
    List.getElem?_append_left (by omega)]

theorem foldl_overflowSlice_frozen (cfg : Config) :
    ∀ (slices : List Str) (s : ResponderState),
      s.currentMsg + 1 = s.arena.length →
      (slices.foldl (overflowSlice cfg) s).currentMsg + 1 =
        (slices.foldl (overflowSlice cfg) s).arena.length ∧
      s.currentMsg ≤ (slices.foldl (overflowSlice cfg) s).currentMsg ∧
      ∀ i, i < s.currentMsg →
        (slices.foldl (overflowSlice cfg) s).arena[i]? = s.arena[i]? := by
  intro slices
  induction slices with
  | nil =>
    intro s hcur
    exact ⟨hcur, Nat.le_refl _, fun i _ => rfl⟩
  | cons x xs ih =>
    intro s hcur
    rw [List.foldl_cons]
    have hcur1 : (overflowSlice cfg s x).currentMsg + 1 = (overflowSlice cfg s x).arena.length := by
      rw [overflowSlice_cur, overflowSlice_len]
    obtain ⟨h1, h2, h3⟩ := ih (overflowSlice cfg s x) hcur1
    refine ⟨h1, ?_, ?_⟩
    · calc s.currentMsg ≤ (overflowSlice cfg s x).currentMsg := by
            rw [overflowSlice_cur]; omega
        _ ≤ _ := h2
    · intro i hi
      rw [h3 i (by rw [overflowSlice_cur]; omega), overflowSlice_frozen cfg s x hi hcur]

theorem foldl_overflowSlice_shape (cfg : Config) :
    ∀ (slices : List Str) (s : ResponderState), slices ≠ [] →
      s.currentMsg + 1 = s.arena.length →
      ∃ lastSlice, slices.getLast? = some lastSlice ∧
        (slices.foldl (overflowSlice cfg) s).messageContent =
          cfg.messagePrefix ++ contPre ++ lastSlice ++ contSuf ∧
        (slices.foldl (overflowSlice cfg) s).arena[(slices.foldl (overflowSlice cfg) s).currentMsg]? =
          some { localContent := (slices.foldl (overflowSlice cfg) s).messageContent
                 serverContent := (slices.foldl (overflowSlice cfg) s).messageContent
                 jumpUrl := cfg.urls (slices.foldl (overflowSlice cfg) s).currentMsg } := by
  intro slices
  induction slices with
  | nil => intro s h; exact absurd rfl h
  | cons x xs ih =>
    intro s _ hcur
    cases xs with
    | nil =>
      refine ⟨x, rfl, ?_, ?_⟩
      · rw [List.foldl_cons, List.foldl_nil, overflowSlice_mc]
      · rw [List.foldl_cons, List.foldl_nil, overflowSlice_mc, overflowSlice_cur]
        exact overflowSlice_newRec cfg s x hcur
    | cons y ys =>
      have hcur1 : (overflowSlice cfg s x).currentMsg + 1 =
          (overflowSlice cfg s x).arena.length := by
        rw [overflowSlice_cur, overflowSlice_len]
      obtain ⟨lastSlice, hl, hmc, hrec⟩ := ih (overflowSlice cfg s x) (List.cons_ne_nil y ys) hcur1
      refine ⟨lastSlice, ?_, ?_, ?_⟩
      · rw [List.getLast?_cons_cons]
        exact hl
      · rw [List.foldl_cons]
        exact hmc
      · rw [List.foldl_cons]
        exact hrec

theorem editCurrent_frozen (payload : Str) (s : ResponderState) {i : Nat}
    (hi : i ≠ s.currentMsg) : (editCurrent payload s).arena[i]? = s.arena[i]? := by
  simp only [editCurrent]
  rw [modifyAt_getElem?_of_ne _ _ _ _ hi]

theorem writeChunk_frozen (cfg : Config) (chunk2 : Str) (s1 : ResponderState)
    (hcur : s1.currentMsg + 1 = s1.arena.length) :
    (writeChunk cfg chunk2 s1).currentMsg + 1 = (writeChunk cfg chunk2 s1).arena.length ∧
    s1.currentMsg ≤ (writeChunk cfg chunk2 s1).currentMsg ∧
    ∀ i, i < s1.currentMsg → (writeChunk cfg chunk2 s1).arena[i]? = s1.arena[i]? := by
  unfold writeChunk handleMessageLengthOverflow
  split
  · exact ⟨hcur, Nat.le_refl _, fun i _ => rfl⟩
  · split
    · exact foldl_overflowSlice_frozen cfg _ s1 hcur
    · refine ⟨?_, Nat.le_refl _, ?_⟩
      · simpa [editCurrent, modifyAt_length] using hcur
      · intro i hi
        exact editCurrent_frozen _ _ (show i ≠ s1.currentMsg by omega)

theorem addText_frozen (cfg : Config) (c : Str) (s : ResponderState)
    (hcur : s.currentMsg + 1 = s.arena.length) :
    (addTextToReplyMessage cfg c s).currentMsg + 1 =
      (addTextToReplyMessage cfg c s).arena.length ∧
    s.currentMsg ≤ (addTextToReplyMessage cfg c s).currentMsg ∧
    ∀ i, i < s.currentMsg → (addTextToReplyMessage cfg c s).arena[i]? = s.arena[i]? := by
  simp only [addTextToReplyMessage, applyCleaned]
  split
  · exact writeChunk_frozen cfg _ _ hcur
  · exact writeChunk_frozen cfg _ _ hcur

theorem applyChunks_frozen (cfg : Config) :
    ∀ (cs : List Str) (s : ResponderState),
      s.currentMsg + 1 = s.arena.length →
      ∀ i, i < s.currentMsg → (applyChunks cfg cs s).arena[i]? = s.arena[i]? := by
  intro cs
  induction cs with
  | nil => intro s _ i _; rfl
  | cons c cs ih =>
    intro s hcur i hi
    show (applyChunks cfg cs (addTextToReplyMessage cfg c s)).arena[i]? = _
    obtain ⟨h1, h2, h3⟩ := addText_frozen cfg c s hcur
    rw [ih _ h1 i (by omega), h3 i hi]

theorem addText_clean (cfg : Config) {c : Str} (s : ResponderState)
    (hcolon : ':' ∉ c) (hS : 'S' ∉ c) :
    addTextToReplyMessage cfg c s =
      writeChunk cfg c { s with fullMessageContent := s.fullMessageContent ++ c } := by
  have h1 : stripName cfg c = c := stripName_no_colon cfg hcolon
  have h2 : pyContains STOP_STREAMING_TOKEN c = false :=
    pyContains_eq_false_of_not_mem (show 'S' ∈ STOP_STREAMING_TOKEN by decide) hS
  simp only [addTextToReplyMessage, applyCleaned, h1, h2, Bool.false_eq_true, if_false]

theorem writeChunk_append_eq (cfg : Config) {c : Str} (s1 : ResponderState) (hne : c ≠ [])
    (hlen : s1.messageContent.length + c.length ≤ comfyMessageLength) :
    writeChunk cfg c s1 =
      editCurrent (s1.messageContent ++ c) { s1 with messageContent := s1.messageContent ++ c } := by
  unfold writeChunk
  rw [if_neg hne, if_neg (by omega)]

theorem writeChunk_overflow_eq (cfg : Config) {c : Str} (s1 : ResponderState) (hne : c ≠ [])
    (hlen : comfyMessageLength < s1.messageContent.length + c.length) :
    writeChunk cfg c s1 = handleMessageLengthOverflow cfg c s1 := by
  unfold writeChunk
  rw [if_neg hne, if_pos (by omega)]

/-- C5 amended: whenever the Overflow Paginator completes (on a nonempty
chunk, from a state whose current message is the last chain entry and whose
lengths are in bounds), the new current message's content is exactly the
continuation seed built from the *last* slice — which is bounded by the
comfortable ceiling *plus the 25-character wrapper* (1625), and can exceed
the ceiling itself — the current message's server content equals that seed,
every chain message (the frozen previous one included, its footer counted)
is within the hard maximum, and all retired messages are never edited again
by any further writer activity. -/
theorem C5_amended (cfg : Config) (c : Str) (s : ResponderState)
    (hP : cfg.messagePrefix = []) (hU : ∀ k, (cfg.urls k).length ≤ 342)
    (hc : c ≠ []) (hcur : s.currentMsg + 1 = s.arena.length) (hb : Bounded s) :
    ∃ lastSlice, (pyChunks comfyMessageLength c).getLast? = some lastSlice ∧
      (handleMessageLengthOverflow cfg c s).messageContent =
        contPre ++ lastSlice ++ contSuf ∧
      (handleMessageLengthOverflow cfg c s).messageContent.length ≤ comfyMessageLength + 25 ∧
      ((handleMessageLengthOverflow cfg c s).arena.map
          MsgRec.serverContent)[(handleMessageLengthOverflow cfg c s).currentMsg]? =
        some (handleMessageLengthOverflow cfg c s).messageContent ∧
      (∀ m ∈ (handleMessageLengthOverflow cfg c s).arena,
        m.serverContent.length ≤ maxMessageLength) ∧
      (∀ (cs : List Str) (i : Nat), i < (handleMessageLengthOverflow cfg c s).currentMsg →
        (applyChunks cfg cs (handleMessageLengthOverflow cfg c s)).arena[i]? =
          (handleMessageLengthOverflow cfg c s).arena[i]?) := by
  have hslices : pyChunks comfyMessageLength c ≠ [] := pyChunks_ne_nil hc
  obtain ⟨lastSlice, hl, hmc, hrec⟩ :=
    foldl_overflowSlice_shape cfg (pyChunks comfyMessageLength c) s hslices hcur
  have hlast_le : lastSlice.length ≤ comfyMessageLength :=
    (pyChunks_mem (by decide) (mem_of_getLast?_eq hl)).1
  have hmc' : (handleMessageLengthOverflow cfg c s).messageContent =
      contPre ++ lastSlice ++ contSuf := by
    show (List.foldl (overflowSlice cfg) s (pyChunks comfyMessageLength c)).messageContent = _
    rw [hmc, hP, List.nil_append]
  refine ⟨lastSlice, hl, hmc', ?_, ?_, ?_, ?_⟩
  · rw [hmc']
    simp only [List.length_append, contPre_len, contSuf_len]
    omega
  · show ((List.foldl (overflowSlice cfg) s (pyChunks comfyMessageLength c)).arena.map
        MsgRec.serverContent)[(List.foldl (overflowSlice cfg) s
          (pyChunks comfyMessageLength c)).currentMsg]? = _
    rw [List.getElem?_map, hrec]
    rfl
  · have hbd := foldl_overflowSlice_bounded cfg hP hU (pyChunks comfyMessageLength c) s
      (fun sl hsl => (pyChunks_mem (by decide) hsl).1) hb
    exact hbd.2.1
  · intro cs i hi
    have hcur' := (foldl_overflowSlice_frozen cfg (pyChunks comfyMessageLength c) s hcur).1
    exact applyChunks_frozen cfg cs _ hcur' i hi

/-- Witness for C5 amended: the paginator applied to a small chunk from the
freshly initialized state. -/
theorem C5_amended_witness :
    cfgA.messagePrefix = [] ∧ pyStr "hi" ≠ [] ∧
    (initState cfgA icA).currentMsg + 1 = (initState cfgA icA).arena.length ∧
    Bounded (initState cfgA icA) ∧
    (∃ lastSlice, (pyChunks comfyMessageLength (pyStr "hi")).getLast? = some lastSlice ∧
      (handleMessageLengthOverflow cfgA (pyStr "hi") (initState cfgA icA)).messageContent =
        contPre ++ lastSlice ++ contSuf ∧
      (handleMessageLengthOverflow cfgA (pyStr "hi")
        (initState cfgA icA)).messageContent.length ≤ comfyMessageLength + 25 ∧
      ((handleMessageLengthOverflow cfgA (pyStr "hi") (initState cfgA icA)).arena.map
          MsgRec.serverContent)[(handleMessageLengthOverflow cfgA (pyStr "hi")
            (initState cfgA icA)).currentMsg]? =
        some (handleMessageLengthOverflow cfgA (pyStr "hi") (initState cfgA icA)).messageContent ∧
      (∀ m ∈ (handleMessageLengthOverflow cfgA (pyStr "hi") (initState cfgA icA)).arena,
        m.serverContent.length ≤ maxMessageLength) ∧
      (∀ (cs : List Str) (i : Nat),
        i < (handleMessageLengthOverflow cfgA (pyStr "hi") (initState cfgA icA)).currentMsg →
        (applyChunks cfgA cs (handleMessageLengthOverflow cfgA (pyStr "hi")
          (initState cfgA icA))).arena[i]? =
          (handleMessageLengthOverflow cfgA (pyStr "hi") (initState cfgA icA)).arena[i]?)) :=
  ⟨rfl, by decide, by decide, ⟨by decide, by decide, by decide⟩,
    C5_amended cfgA (pyStr "hi") (initState cfgA icA) rfl cfgA_urls_short
      (by decide) (by decide) ⟨by decide, by decide, by decide⟩⟩

theorem postAttach_mc (s : ResponderState) :
    (postAttach s).messageContent = s.messageContent := by
  unfold postAttach
  split <;> rfl

theorem postAttach_arena (s : ResponderState) : (postAttach s).arena = s.arena := by
  unfold postAttach
  split <;> rfl

theorem postAttach_cur (s : ResponderState) : (postAttach s).currentMsg = s.currentMsg := by
  unfold postAttach
  split <;> rfl

theorem replicate_ne_nil_of_ne_zero {α : Type _} {n : Nat} (hn : n ≠ 0) (a : α) :
    List.replicate n a ≠ [] := by
  intro h
  have hl := congrArg List.length h
  rw [List.length_replicate, List.length_nil] at hl
  exact hn hl

theorem char_not_mem_replicate {c a : Char} (hne : c ≠ a) (n : Nat) :
    c ∉ List.replicate n a :=
  fun h => hne (List.mem_replicate.mp h).2

theorem flushesAux_step_flush (acc b : List Str) (bs : List (List Str)) (hb : b ≠ [])
    (hlen : (acc ++ b).length > chunkSizeDefault) :
    flushesAux acc (b :: bs) = (acc ++ b).flatten :: flushesAux [] bs := by
  simp only [flushesAux]
  rw [if_neg hb, if_pos hlen]

theorem flushesAux_step_acc (acc b : List Str) (bs : List (List Str)) (hb : b ≠ [])
    (hlen : ¬((acc ++ b).length > chunkSizeDefault)) :
    flushesAux acc (b :: bs) = flushesAux (acc ++ b) bs := by
  simp only [flushesAux]
  rw [if_neg hb, if_neg hlen]

theorem flushesAux_nil_eq (acc : List Str) : flushesAux acc [] = [acc.flatten] := by
  simp only [flushesAux]

/-- C5 counterexample: in the run that paginates a 1600-character chunk on
top of a 21-character buffer, pagination completes with the new current
message's content of length 1625 — its seed — which exceeds the comfortable
ceiling 1600, refuting "always ≤ comfortable ceiling". -/
theorem C5_counterexample :
    comfyMessageLength < (runResult cfgA icA batchesC5).messageContent.length ∧
    ((runResult cfgA icA batchesC5).arena.map
        MsgRec.serverContent)[(runResult cfgA icA batchesC5).currentMsg]? =
      some (runResult cfgA icA batchesC5).messageContent := by
  have hc1col : ':' ∉ List.replicate 21 'a' := char_not_mem_replicate (by decide) 21
  have hc1S : 'S' ∉ List.replicate 21 'a' := char_not_mem_replicate (by decide) 21
  have hc2col : ':' ∉ List.replicate 1600 'b' := char_not_mem_replicate (by decide) 1600
  have hc2S : 'S' ∉ List.replicate 1600 'b' := char_not_mem_replicate (by decide) 1600
  have hb1 : List.replicate 21 (['a'] : Str) ≠ [] := replicate_ne_nil_of_ne_zero (by decide) _
  have hl1 : (([] : List Str) ++ List.replicate 21 (['a'] : Str)).length > chunkSizeDefault := by
    rw [List.nil_append, List.length_replicate]
    decide
  have hb2 : ([List.replicate 1600 'b'] : List Str) ≠ [] := List.cons_ne_nil _ _
  have hl2 : ¬((([] : List Str) ++ [List.replicate 1600 'b']).length > chunkSizeDefault) := by
    rw [List.nil_append]
    decide
  have h5 : ([List.replicate 1600 'b'] : List Str).flatten = List.replicate 1600 'b' := by
    simp only [List.flatten_cons, List.flatten_nil, List.append_nil]
  have hfl : flushes batchesC5 = [List.replicate 21 'a', List.replicate 1600 'b'] := by
    show flushesAux [] (List.replicate 21 (['a'] : Str) :: [List.replicate 1600 'b'] :: []) = _
    rw [flushesAux_step_flush _ _ _ hb1 hl1, flushesAux_step_acc _ _ _ hb2 hl2,
      flushesAux_nil_eq, List.nil_append, List.nil_append, flatten_replicate_singleton, h5]
  have E0 : runResult cfgA icA batchesC5 =
      postAttach (addTextToReplyMessage cfgA (List.replicate 1600 'b')
        (addTextToReplyMessage cfgA (List.replicate 21 'a')
          ({ initState cfgA icA with done := true } : ResponderState))) := by
    rw [runResult_eq, hfl]
    rfl
  set s1 := addTextToReplyMessage cfgA (List.replicate 21 'a')
    ({ initState cfgA icA with done := true } : ResponderState) with hs1
  have hmc1 : s1.messageContent = List.replicate 21 'a' := by
    rw [hs1, addText_clean cfgA _ hc1col hc1S,
      writeChunk_append_eq cfgA _ (replicate_ne_nil_of_ne_zero (by decide) _) (by decide)]
    rfl
  have hcur1 : s1.currentMsg + 1 = s1.arena.length :=
    (addText_frozen cfgA _ _ (by decide)).1
  have E2 : addTextToReplyMessage cfgA (List.replicate 1600 'b') s1 =
      handleMessageLengthOverflow cfgA (List.replicate 1600 'b')
        { s1 with fullMessageContent := s1.fullMessageContent ++ List.replicate 1600 'b' } := by
    rw [addText_clean cfgA _ hc2col hc2S]
    refine writeChunk_overflow_eq cfgA _ (replicate_ne_nil_of_ne_zero (by decide) _) ?_
    show comfyMessageLength < s1.messageContent.length + (List.replicate 1600 'b').length
    rw [hmc1]
    simp only [List.length_replicate]
    decide
  have hcur1f : ({ s1 with
      fullMessageContent := s1.fullMessageContent ++ List.replicate 1600 'b' } :
        ResponderState).currentMsg + 1 =
      ({ s1 with
        fullMessageContent := s1.fullMessageContent ++ List.replicate 1600 'b' } :
          ResponderState).arena.length := hcur1
  have E3 : handleMessageLengthOverflow cfgA (List.replicate 1600 'b')
      ({ s1 with fullMessageContent := s1.fullMessageContent ++ List.replicate 1600 'b' } :
        ResponderState) =
      overflowSlice cfgA
        ({ s1 with fullMessageContent := s1.fullMessageContent ++ List.replicate 1600 'b' } :
          ResponderState) (List.replicate 1600 'b') := by
    unfold handleMessageLengthOverflow
    have hlen3 : (List.replicate 1600 'b').length ≤ comfyMessageLength := by
      rw [List.length_replicate]
      decide
    rw [pyChunks_single (replicate_ne_nil_of_ne_zero (by decide) _) hlen3, List.foldl_cons,
      List.foldl_nil]
  rw [E0, E2, E3]
  constructor
  · rw [postAttach_mc, overflowSlice_mc]
    show comfyMessageLength <
      (cfgA.messagePrefix ++ contPre ++ List.replicate 1600 'b' ++ contSuf).length
    rw [show cfgA.messagePrefix = ([] : Str) from rfl, List.nil_append]
    simp only [List.length_append, List.length_replicate, contPre_len, contSuf_len]
    decide
  · rw [postAttach_mc, postAttach_arena, postAttach_cur, overflowSlice_cur,
      List.getElem?_map, overflowSlice_newRec cfgA _ _ hcur1f, overflowSlice_mc]
    rfl

/-! Separator-interleaved text (C1). -/

theorem nl_mem_contSuf : '\n' ∈ contSuf := by decide

theorem sepText_append {t b c : Str} (h : SepText t b) (hc : '\n' ∉ c) :
    SepText (t ++ c) (b ++ c) := by
  induction h with
  | base a ha =>
    refine SepText.base (a ++ c) ?_
    intro hm
    rcases List.mem_append.mp hm with h1 | h1
    · exact ha h1
    · exact hc h1
  | step a t' b' ha hst ih =>
    have h2 := SepText.step a (t' ++ c) (b' ++ c) ha ih
    simpa [List.append_assoc] using h2

theorem sepText_snoc_sep {t b slice : Str} (h : SepText t b) (hs : '\n' ∉ slice) :
    SepText (t ++ (slice ++ contSuf)) (b ++ slice) := by
  induction h with
  | base a ha =>
    have hnl : '\n' ∉ a ++ slice := by
      intro hm
      rcases List.mem_append.mp hm with h1 | h1
      · exact ha h1
      · exact hs h1
    have h2 := SepText.step (a ++ slice) [] [] hnl (SepText.base [] (by simp))
    simpa [List.append_assoc] using h2
  | step a t' b' ha hst ih =>
    have h2 := SepText.step a (t' ++ (slice ++ contSuf)) (b' ++ slice) ha ih
    simpa [List.append_assoc] using h2

theorem contSuf_eq : contSuf = [' ', '\n', '\n'] := rfl

theorem replace_skip {a : Str} (ha : '\n' ∉ a) (t' : Str) :
    pyReplace contSuf [] (a ++ contSuf ++ t') = a ++ pyReplace contSuf [] t' := by
  induction a with
  | nil =>
    rw [List.nil_append, List.nil_append, pyReplace_pos [] (by decide)
      (List.isPrefixOf_iff_prefix.mpr (List.prefix_append contSuf t')), List.nil_append,
      List.drop_left]
  | cons x a' ih =>
    have hnot : contSuf.isPrefixOf (x :: (a' ++ contSuf ++ t')) = false := by
      cases hpre : contSuf.isPrefixOf (x :: (a' ++ contSuf ++ t')) with
      | false => rfl
      | true =>
        exfalso
        obtain ⟨u, hu⟩ := List.isPrefixOf_iff_prefix.mp hpre
        rw [contSuf_eq] at hu
        cases a' with
        | nil =>
          simp only [List.nil_append, contSuf_eq, List.cons_append] at hu
          have h2 := hu
          injection h2 with e1 h2
          injection h2 with e2 h2
          exact absurd e2.symm (by decide)
        | cons y a'' =>
          simp only [List.cons_append] at hu
          injection hu with e1 h2
          injection h2 with e2 h2
          apply ha
          rw [← e2]
          exact List.mem_cons_of_mem _ (List.mem_cons_self _ _)
    rw [List.cons_append, List.cons_append, pyReplace_neg hnot,
      ih (fun hm => ha (List.mem_cons_of_mem _ hm))]
    rfl

theorem sepText_replace {t b : Str} (h : SepText t b) : pyReplace contSuf [] t = b := by
  induction h with
  | base a ha => exact pyReplace_of_not_mem nl_mem_contSuf ha
  | step a t' b' ha hst ih => rw [replace_skip ha, ih]

theorem sepText_nonempty {t b : Str} (h : SepText t b) (hb : b ≠ []) : t ≠ [] := by
  intro ht
  apply hb
  rw [← sepText_replace h, ht]
  rfl

/-! The stripped-content model accumulates the input with separators. -/

theorem absText_retire (a : AbsState) (x : Str) :
    absText (absRetire a x) = absText a ++ (x ++ contSuf) := by
  simp [absText, absRetire, List.flatten_append, List.append_assoc]

theorem foldl_absRetire_sepText :
    ∀ (slices : List Str) (a : AbsState) (consumed : Str),
      (∀ sl ∈ slices, '\n' ∉ sl) → SepText (absText a) consumed →
      SepText (absText (slices.foldl absRetire a)) (consumed ++ slices.flatten) := by
  intro slices
  induction slices with
  | nil =>
    intro a consumed _ h
    simpa using h
  | cons x xs ih =>
    intro a consumed hnl h
    rw [List.foldl_cons, List.flatten_cons]
    have h1 : SepText (absText (absRetire a x)) (consumed ++ x) := by
      rw [absText_retire]
      exact sepText_snoc_sep h (hnl x (List.mem_cons_self x xs))
    have h2 := ih (absRetire a x) (consumed ++ x)
      (fun sl hsl => hnl sl (List.mem_cons_of_mem _ hsl)) h1
    simpa [List.append_assoc] using h2

theorem absApply_sepText {a : AbsState} {consumed : Str} (h : SepText (absText a) consumed)
    {c : Str} (hc : '\n' ∉ c) :
    SepText (absText (absApply c a)) (consumed ++ c) := by
  unfold absApply
  split
  · rename_i hceq
    subst hceq
    simpa using h
  · split
    · have hfl : (pyChunks comfyMessageLength c).flatten = c :=
        pyChunks_flatten (by decide) c
      have h2 := foldl_absRetire_sepText (pyChunks comfyMessageLength c) a consumed
        (fun sl hsl hx => hc ((pyChunks_mem (by decide) hsl).2 '\n' hx)) h
      rwa [hfl] at h2
    · have h2 := sepText_append h hc
      have he : absText { a with cur := a.cur ++ c } = absText a ++ c := by
        simp [absText, List.append_assoc]
      rw [he]
      exact h2

theorem absApplyList_sepText :
    ∀ (cs : List Str) (a : AbsState) (consumed : Str),
      (∀ ch ∈ cs, '\n' ∉ ch) → SepText (absText a) consumed →
      SepText (absText (cs.foldl (fun a c => absApply c a) a)) (consumed ++ cs.flatten) := by
  intro cs
  induction cs with
  | nil =>
    intro a consumed _ h
    simpa using h
  | cons c cs ih =>
    intro a consumed hnl h
    rw [List.foldl_cons, List.flatten_cons]
    have h1 := absApply_sepText h (hnl c (List.mem_cons_self c cs))
    have h2 := ih (absApply c a) (consumed ++ c)
      (fun ch hch => hnl ch (List.mem_cons_of_mem _ hch)) h1
    simpa [List.append_assoc] using h2

/-! Coupling of the concrete responder with the stripped-content model. -/

theorem retiredContents_append (cfg : Config) :
    ∀ (outs : List Str) (i : Nat) (x : Str),
      retiredContents cfg i (outs ++ [x]) =
        retiredContents cfg i outs ++
          [wrapAt (i + outs.length) ++ x ++ footerPre ++ cfg.urls (i + outs.length + 1)] := by
  intro outs
  induction outs with
  | nil =>
    intro i x
    simp [retiredContents]
  | cons core rest ih =>
    intro i x
    have harg : i + 1 + rest.length = i + (rest.length + 1) := by omega
    show (wrapAt i ++ core ++ footerPre ++ cfg.urls (i + 1)) ::
        retiredContents cfg (i + 1) (rest ++ [x]) = _
    rw [ih (i + 1) x, harg]
    simp [retiredContents, List.length_cons]

theorem overflowSlice_arena (cfg : Config) (s : ResponderState) (slice : Str)
    (front : List MsgRec) (lastR : MsgRec)
    (harena : s.arena = front ++ [lastR]) (hcuri : s.currentMsg = front.length) :
    (overflowSlice cfg s slice).arena =
      front ++
        ({ localContent := cfg.messagePrefix ++ contPre ++ slice ++ contSuf
           serverContent := s.messageContent ++ footerPre ++ cfg.urls s.arena.length
           jumpUrl := lastR.jumpUrl } ::
          [{ localContent := cfg.messagePrefix ++ contPre ++ slice ++ contSuf
             serverContent := cfg.messagePrefix ++ contPre ++ slice ++ contSuf
             jumpUrl := cfg.urls s.arena.length }]) := by
  simp only [overflowSlice, editCurrent, addReplyMessageToList]
  rw [harena, hcuri, List.append_assoc front [lastR], List.singleton_append]
  rw [modifyAt_append_cons, modifyAt_append_cons]

theorem coupled_overflowSlice (cfg : Config) (ic : Str) (hP : cfg.messagePrefix = [])
    {s : ResponderState} {a : AbsState} (h : Coupled cfg ic s a) (slice : Str) :
    Coupled cfg ic (overflowSlice cfg s slice) (absRetire a slice) := by
  obtain ⟨front, lastR, harena, hflen, hcur, hmap, hcont, hmc, _⟩ := h
  have hcuri : s.currentMsg = front.length := by rw [hcur, hflen]
  have hlen : s.arena.length = front.length + 1 := by simp [harena]
  refine ⟨front ++
      [{ localContent := cfg.messagePrefix ++ contPre ++ slice ++ contSuf
         serverContent := s.messageContent ++ footerPre ++ cfg.urls s.arena.length
         jumpUrl := lastR.jumpUrl }],
    { localContent := cfg.messagePrefix ++ contPre ++ slice ++ contSuf
      serverContent := cfg.messagePrefix ++ contPre ++ slice ++ contSuf
      jumpUrl := cfg.urls s.arena.length }, ?_, ?_, ?_, ?_, ?_, ?_, ?_⟩
  · rw [overflowSlice_arena cfg s slice front lastR harena hcuri]
    simp
  · simp [absRetire, hflen]
  · rw [overflowSlice_cur, hlen, hflen]
    simp [absRetire]
  · rw [List.map_append, hmap]
    simp only [List.map_cons, List.map_nil, absRetire]
    rw [retiredContents_append cfg a.outs 0 a.cur]
    rw [hmc, hlen, hflen]
    simp [List.append_assoc]
  · simp [absRetire]
  · rw [overflowSlice_mc, hP]
    simp [absRetire, wrapAt, List.append_assoc]
  · left
    rw [overflowSlice_mc]

theorem coupled_foldl_overflowSlice (cfg : Config) (ic : Str) (hP : cfg.messagePrefix = []) :
    ∀ (slices : List Str) {s : ResponderState} {a : AbsState}, Coupled cfg ic s a →
      Coupled cfg ic (slices.foldl (overflowSlice cfg) s) (slices.foldl absRetire a) := by
  intro slices
  induction slices with
  | nil => intro s a h; exact h
  | cons x xs ih =>
    intro s a h
    rw [List.foldl_cons, List.foldl_cons]
    exact ih (coupled_overflowSlice cfg ic hP h x)

theorem coupled_addText (cfg : Config) (ic : Str) (hP : cfg.messagePrefix = [])
    {s : ResponderState} {a : AbsState} (h : Coupled cfg ic s a) {c : Str}
    (hcol : ':' ∉ c) (hS : 'S' ∉ c) :
    Coupled cfg ic (addTextToReplyMessage cfg c s) (absApply c a) := by
  rw [addText_clean cfg s hcol hS]
  have h' : Coupled cfg ic { s with fullMessageContent := s.fullMessageContent ++ c } a := h
  by_cases hc : c = []
  · subst hc
    have e1 : writeChunk cfg []
        { s with fullMessageContent := s.fullMessageContent ++ [] } =
        { s with fullMessageContent := s.fullMessageContent ++ [] } := rfl
    have e2 : absApply [] a = a := rfl
    rw [e1, e2]
    exact h'
  · obtain ⟨front, lastR, harena, hflen, hcur, hmap, hcont, hmc, hlast⟩ := h
    have hwrap : (wrapAt a.outs.length).length = absWrapLen a := by
      by_cases hn : a.outs.length = 0
      · simp [wrapAt, absWrapLen, hcont, hn]
      · simp [wrapAt, absWrapLen, hcont, hn]
    have hcond : (comfyMessageLength < s.messageContent.length + c.length) ↔
        (comfyMessageLength < absWrapLen a + a.cur.length + c.length) := by
      rw [hmc]
      simp [List.length_append, hwrap]
    by_cases hov : comfyMessageLength < s.messageContent.length + c.length
    · have hov' : comfyMessageLength <
          ({ s with fullMessageContent := s.fullMessageContent ++ c } :
            ResponderState).messageContent.length + c.length := hov
      rw [writeChunk_overflow_eq cfg _ hc hov']
      unfold handleMessageLengthOverflow
      rw [show absApply c a = (pyChunks comfyMessageLength c).foldl absRetire a from by
        unfold absApply
        rw [if_neg hc, if_pos (hcond.mp hov)]]
      exact coupled_foldl_overflowSlice cfg ic hP _ h'
    · have hle' : ({ s with fullMessageContent := s.fullMessageContent ++ c } :
          ResponderState).messageContent.length + c.length ≤ comfyMessageLength := by
        show s.messageContent.length + c.length ≤ comfyMessageLength
        omega
      rw [writeChunk_append_eq cfg _ hc hle']
      rw [show absApply c a = { a with cur := a.cur ++ c } from by
        unfold absApply
        rw [if_neg hc, if_neg (fun hh => hov (hcond.mpr hh))]]
      refine ⟨front,
        { localContent := lastR.localContent
          serverContent := s.messageContent ++ c
          jumpUrl := lastR.jumpUrl }, ?_, ?_, ?_, ?_, ?_, ?_, ?_⟩
      · show modifyAt _ s.currentMsg s.arena = _
        rw [harena, hcur, ← hflen, modifyAt_append_cons]
      · exact hflen
      · exact hcur
      · exact hmap
      · exact hcont
      · show s.messageContent ++ c = _
        rw [hmc, List.append_assoc]
      · left
        rfl

theorem coupled_applyChunks (cfg : Config) (ic : Str) (hP : cfg.messagePrefix = []) :
    ∀ (cs : List Str) {s : ResponderState} {a : AbsState},
      (∀ ch ∈ cs, ':' ∉ ch ∧ 'S' ∉ ch) → Coupled cfg ic s a →
      Coupled cfg ic (applyChunks cfg cs s) (cs.foldl (fun a c => absApply c a) a) := by
  intro cs
  induction cs with
  | nil => intro s a _ h; exact h
  | cons c cs ih =>
    intro s a hcl h
    show Coupled cfg ic (applyChunks cfg cs (addTextToReplyMessage cfg c s)) _
    rw [List.foldl_cons]
    exact ih (fun ch hch => hcl ch (List.mem_cons_of_mem _ hch))
      (coupled_addText cfg ic hP h (hcl c (List.mem_cons_self c cs)).1
        (hcl c (List.mem_cons_self c cs)).2)

theorem coupled_postAttach (cfg : Config) (ic : Str) {s : ResponderState} {a : AbsState}
    (h : Coupled cfg ic s a) : Coupled cfg ic (postAttach s) a := by
  unfold postAttach
  split
  · exact h
  · exact h

theorem coupled_init (cfg : Config) (ic : Str) (hP : cfg.messagePrefix = []) :
    Coupled cfg ic ({ initState cfg ic with done := true } : ResponderState)
      { outs := [], cur := [], isCont := false } := by
  refine ⟨[], { localContent := ic, serverContent := ic, jumpUrl := cfg.urls 0 },
    ?_, rfl, rfl, rfl, by simp, ?_, Or.inr ⟨rfl, rfl, rfl⟩⟩
  · rfl
  · show cfg.messagePrefix = wrapAt 0 ++ []
    rw [hP]
    rfl

theorem flushesAux_char_not_mem (x : Char) :
    ∀ (bs : List (List Str)) (acc : List Str),
      (∀ t ∈ acc, x ∉ t) → (∀ b ∈ bs, ∀ t ∈ b, x ∉ t) →
      ∀ ch ∈ flushesAux acc bs, x ∉ ch := by
  intro bs
  induction bs with
  | nil =>
    intro acc hacc _ ch hch hmem
    simp only [flushesAux, List.mem_singleton] at hch
    subst hch
    obtain ⟨t, ht, hmt⟩ := List.mem_flatten.mp hmem
    exact hacc t ht hmt
  | cons b bs ih =>
    intro acc hacc H ch hch
    by_cases hb : b = []
    · subst hb
      rw [show flushesAux acc ([] :: bs) = flushesAux acc bs from by simp [flushesAux]] at hch
      exact ih acc hacc (fun b hb => H b (List.mem_cons_of_mem _ hb)) ch hch
    · by_cases hlen : (acc ++ b).length > chunkSizeDefault
      · rw [show flushesAux acc (b :: bs) = ((acc ++ b).flatten) :: flushesAux [] bs from by
          simp only [flushesAux]; rw [if_neg hb, if_pos hlen]] at hch
        rcases List.mem_cons.mp hch with h1 | h1
        · subst h1
          intro hmem
          obtain ⟨t, ht, hmt⟩ := List.mem_flatten.mp hmem
          rcases List.mem_append.mp ht with h2 | h2
          · exact hacc t h2 hmt
          · exact H b (List.mem_cons_self b bs) t h2 hmt
        · exact ih [] (by simp) (fun b hb => H b (List.mem_cons_of_mem _ hb)) ch h1
      · rw [show flushesAux acc (b :: bs) = flushesAux (acc ++ b) bs from by
          simp only [flushesAux]; rw [if_neg hb, if_neg hlen]] at hch
        refine ih (acc ++ b) ?_ (fun b hb => H b (List.mem_cons_of_mem _ hb)) ch hch
        intro t ht
        rcases List.mem_append.mp ht with h2 | h2
        · exact hacc t h2
        · exact H b (List.mem_cons_self b bs) t h2

/-- C1 amended: for every drain schedule with the default configuration,
empty `message_prefix`, fragments free of `':'`, `'S'` and newline
characters, and a nonempty total text, the chain contents decompose exactly
into wrapper opening + stripped core + continuation-link footer for every
retired message and wrapper opening + running core for the final message,
where the cores are computed by the spec-level stripped-content paginator
`absRun`; and the concatenation of those cores, after removing the `" \n\n"`
wrapper-closing separators the code inserts after every pagination slice,
equals the concatenation of the pushed fragments.  (The separators are the
deviation the code forces on the claim: stripping only the continuation
openings and footers leaves one `" \n\n"` per pagination slice behind.) -/
theorem C1_amended (cfg : Config) (ic : Str) (bs : List (List Str))
    (hP : cfg.messagePrefix = [])
    (hT : ∀ b ∈ bs, ∀ t ∈ b, ':' ∉ t ∧ 'S' ∉ t ∧ '\n' ∉ t)
    (hnz : bs.flatten.flatten ≠ []) :
    (runResult cfg ic bs).arena.map MsgRec.serverContent =
      retiredContents cfg 0 (absRun (flushes bs)).outs ++
        [wrapAt (absRun (flushes bs)).outs.length ++ (absRun (flushes bs)).cur] ∧
    pyReplace contSuf [] (absText (absRun (flushes bs))) = bs.flatten.flatten := by
  have hclean : ∀ ch ∈ flushes bs, ':' ∉ ch ∧ 'S' ∉ ch := by
    intro ch hch
    constructor
    · exact flushesAux_char_not_mem ':' bs [] (by simp)
        (fun b hb t ht => (hT b hb t ht).1) ch hch
    · exact flushesAux_char_not_mem 'S' bs [] (by simp)
        (fun b hb t ht => (hT b hb t ht).2.1) ch hch
  have hnl : ∀ ch ∈ flushes bs, '\n' ∉ ch := fun ch hch =>
    flushesAux_char_not_mem '\n' bs [] (by simp)
      (fun b hb t ht => (hT b hb t ht).2.2) ch hch
  have hsep : SepText (absText (absRun (flushes bs))) (bs.flatten.flatten) := by
    have h0 : SepText (absText { outs := [], cur := [], isCont := false }) [] :=
      SepText.base [] (by simp)
    have h1 := absApplyList_sepText (flushes bs) { outs := [], cur := [], isCont := false }
      [] hnl h0
    rw [List.nil_append] at h1
    have h2 : (flushes bs).flatten = bs.flatten.flatten := by
      rw [flushes, flushesAux_flatten]
      rfl
    rwa [h2] at h1
  have hrepl : pyReplace contSuf [] (absText (absRun (flushes bs))) = bs.flatten.flatten :=
    sepText_replace hsep
  refine ⟨?_, hrepl⟩
  have hcoup : Coupled cfg ic (runResult cfg ic bs) (absRun (flushes bs)) := by
    rw [runResult_eq]
    exact coupled_postAttach cfg ic
      (coupled_applyChunks cfg ic hP (flushes bs) hclean (coupled_init cfg ic hP))
  obtain ⟨front, lastR, harena, hflen, hcur, hmap, hcont, hmc, hlast⟩ := hcoup
  have hlast' : lastR.serverContent = (runResult cfg ic bs).messageContent := by
    rcases hlast with h1 | ⟨houts, hcurnil, _⟩
    · exact h1
    · exfalso
      apply hnz
      rw [← hrepl]
      have : absText (absRun (flushes bs)) = [] := by
        rw [absText, houts, hcurnil]
        rfl
      rw [this]
      rfl
  rw [harena, List.map_append, hmap]
  simp only [List.map_cons, List.map_nil]
  rw [hlast', hmc]

/-- Witness for C1 amended: one short fragment, no pagination. -/
theorem C1_amended_witness :
    cfgA.messagePrefix = [] ∧
    (∀ b ∈ [[pyStr "ab"]], ∀ t ∈ b, ':' ∉ t ∧ 'S' ∉ t ∧ '\n' ∉ t) ∧
    ([[pyStr "ab"]] : List (List Str)).flatten.flatten ≠ [] ∧
    ((runResult cfgA icA [[pyStr "ab"]]).arena.map MsgRec.serverContent =
      retiredContents cfgA 0 (absRun (flushes [[pyStr "ab"]])).outs ++
        [wrapAt (absRun (flushes [[pyStr "ab"]])).outs.length ++
          (absRun (flushes [[pyStr "ab"]])).cur] ∧
     pyReplace contSuf [] (absText (absRun (flushes [[pyStr "ab"]]))) =
       ([[pyStr "ab"]] : List (List Str)).flatten.flatten) :=
  ⟨rfl, by decide, by decide, C1_amended cfgA icA [[pyStr "ab"]] rfl (by decide) (by decide)⟩

/-! Evaluation lemmas for the stripping of chain contents (C1 counterexample). -/

theorem strippedOutputsAux_eq_stripContents (cfg : Config) :
    ∀ (l : List MsgRec) (i : Nat),
      strippedOutputsAux cfg i l = stripContents cfg i (l.map MsgRec.serverContent) := by
  intro l
  induction l with
  | nil => intro i; rfl
  | cons m rest ih =>
    intro i
    show _ :: strippedOutputsAux cfg (i + 1) rest = _
    rw [ih (i + 1)]
    rfl

theorem dropSuffixIf_append (suf x : Str) : dropSuffixIf suf (x ++ suf) = x := by
  unfold dropSuffixIf
  rw [if_pos (List.isSuffixOf_iff_suffix.mpr (List.suffix_append x suf))]
  simp only [List.length_append]
  rw [Nat.add_sub_cancel, List.take_left]

theorem dropSuffixIf_long {suf s : Str} (h : s.length < suf.length) :
    dropSuffixIf suf s = s := by
  unfold dropSuffixIf
  rw [if_neg]
  intro hsuf
  have := List.IsSuffix.length_le (List.isSuffixOf_iff_suffix.mp hsuf)
  omega

theorem dropPrefixIf_append (pre rest : Str) : dropPrefixIf pre (pre ++ rest) = rest := by
  unfold dropPrefixIf
  rw [if_pos (List.isPrefixOf_iff_prefix.mpr (List.prefix_append pre rest)), List.drop_left]

theorem dropPrefixIf_nil {pre : Str} (h : pre ≠ []) : dropPrefixIf pre [] = [] := by
  unfold dropPrefixIf
  rw [if_neg]
  rw [isPrefixOf_nil_false h]
  exact Bool.false_ne_true

theorem pyChunksFuel_single {n : Nat} {s : Str} (f : Nat) (h1 : s ≠ [])
    (h2 : s.length ≤ n) : pyChunksFuel n (f + 1) s = [s] := by
  cases s with
  | nil => exact absurd rfl h1
  | cons c rest =>
    simp only [pyChunksFuel]
    rw [List.take_of_length_le h2, List.drop_of_length_le h2, pyChunksFuel_nil]

theorem pyChunks_two {n : Nat} {s : Str} (h1 : 0 < n) (h2 : n < s.length)
    (h3 : s.length ≤ 2 * n) : pyChunks n s = [s.take n, s.drop n] := by
  cases s with
  | nil => simp at h2
  | cons c rest =>
    show pyChunksFuel n (rest.length + 1) (c :: rest) = _
    simp only [pyChunksFuel]
    obtain ⟨f, hf⟩ : ∃ f, rest.length = f + 1 := by
      refine ⟨rest.length - 1, ?_⟩
      simp only [List.length_cons] at h2
      omega
    rw [hf, pyChunksFuel_single f ?_ ?_]
    · intro hnil
      have := congrArg List.length hnil
      simp only [List.length_drop, List.length_cons, List.length_nil] at this
      simp only [List.length_cons] at h2
      omega
    · simp only [List.length_drop, List.length_cons]
      simp only [List.length_cons] at h3
      omega

/-- C1 counterexample: pushing the single fragment of 1601 copies of `'a'`
(with shutdown) paginates into two continuation messages, and the chain
contents stripped of the continuation openings and continuation-link
footers still contain one `" \n\n"` wrapper closing per pagination slice,
so their concatenation differs from the concatenation of the input
fragments. -/
theorem C1_counterexample :
    (strippedOutputs cfgA (runResult cfgA icA batchesC1)).flatten ≠
      batchesC1.flatten.flatten := by
  have hbs : batchesC1.flatten.flatten = List.replicate 1601 'a' := by
    simp only [batchesC1, List.flatten_cons, List.flatten_nil, List.append_nil]
  have hbX : ([List.replicate 1601 'a'] : List Str) ≠ [] := List.cons_ne_nil _ _
  have hlX : ¬((([] : List Str) ++ [List.replicate 1601 'a']).length > chunkSizeDefault) := by
    rw [List.nil_append]
    decide
  have hflatX : (([] : List Str) ++ [List.replicate 1601 'a']).flatten =
      List.replicate 1601 'a' := by
    rw [List.nil_append]
    simp only [List.flatten_cons, List.flatten_nil, List.append_nil]
  have hfl : flushes batchesC1 = [List.replicate 1601 'a'] := by
    show flushesAux [] ([List.replicate 1601 'a'] :: []) = _
    rw [flushesAux_step_acc _ _ _ hbX hlX, flushesAux_nil_eq, hflatX]
  have hslices : pyChunks comfyMessageLength (List.replicate 1601 'a') =
      [List.replicate 1600 'a', List.replicate 1 'a'] := by
    rw [pyChunks_two (by decide) (by rw [List.length_replicate]; decide)
      (by rw [List.length_replicate]; decide)]
    rw [List.take_replicate, List.drop_replicate]
    rw [show comfyMessageLength ⊓ 1601 = 1600 from by decide,
      show 1601 - comfyMessageLength = 1 from by decide]
  have hA : absRun (flushes batchesC1) =
      { outs := [[], List.replicate 1600 'a' ++ contSuf]
        cur := List.replicate 1 'a' ++ contSuf
        isCont := true } := by
    rw [hfl]
    show absApply (List.replicate 1601 'a') { outs := [], cur := [], isCont := false } = _
    unfold absApply
    rw [if_neg (replicate_ne_nil_of_ne_zero (by decide) _),
      if_pos (by rw [List.length_replicate]; decide), hslices]
    rfl
  have hclean : ∀ ch ∈ flushes batchesC1, ':' ∉ ch ∧ 'S' ∉ ch := by
    rw [hfl]
    intro ch hch
    rw [List.mem_singleton.mp hch]
    exact ⟨char_not_mem_replicate (by decide) 1601, char_not_mem_replicate (by decide) 1601⟩
  have hcoup : Coupled cfgA icA (runResult cfgA icA batchesC1) (absRun (flushes batchesC1)) := by
    rw [runResult_eq]
    exact coupled_postAttach cfgA icA
      (coupled_applyChunks cfgA icA rfl (flushes batchesC1) hclean (coupled_init cfgA icA rfl))
  rw [hA] at hcoup
  obtain ⟨front, lastR, harena, hflen, hcur, hmap, hcont, hmc, hlast⟩ := hcoup
  have hlast' : lastR.serverContent = (runResult cfgA icA batchesC1).messageContent := by
    rcases hlast with h1 | ⟨houts, _, _⟩
    · exact h1
    · exact absurd houts (List.cons_ne_nil _ _)
  have hmapfull : (runResult cfgA icA batchesC1).arena.map MsgRec.serverContent =
      retiredContents cfgA 0 [[], List.replicate 1600 'a' ++ contSuf] ++
        [wrapAt 2 ++ (List.replicate 1 'a' ++ contSuf)] := by
    rw [harena, List.map_append, hmap]
    simp only [List.map_cons, List.map_nil]
    rw [hlast', hmc]
    rfl
  rw [strippedOutputs, strippedOutputsAux_eq_stripContents, hmapfull, hbs]
  have he0 : dropPrefixIf contPre (dropSuffixIf (footerPre ++ cfgA.urls (0 + 1))
      (wrapAt 0 ++ [] ++ footerPre ++ cfgA.urls (0 + 1))) = [] := by
    rw [show wrapAt 0 ++ [] ++ footerPre ++ cfgA.urls (0 + 1) =
        [] ++ (footerPre ++ cfgA.urls (0 + 1)) from by simp [wrapAt]]
    rw [dropSuffixIf_append, dropPrefixIf_nil (by decide)]
  have he1 : dropPrefixIf contPre (dropSuffixIf (footerPre ++ cfgA.urls (0 + 1 + 1))
      (wrapAt (0 + 1) ++ (List.replicate 1600 'a' ++ contSuf) ++ footerPre ++
        cfgA.urls (0 + 1 + 1))) = List.replicate 1600 'a' ++ contSuf := by
    have hw1 : wrapAt (0 + 1) = contPre := rfl
    have hassoc1 : wrapAt (0 + 1) ++ (List.replicate 1600 'a' ++ contSuf) ++ footerPre ++
        cfgA.urls (0 + 1 + 1) =
        (contPre ++ (List.replicate 1600 'a' ++ contSuf)) ++
          (footerPre ++ cfgA.urls (0 + 1 + 1)) := by
      rw [hw1]
      simp only [List.append_assoc]
    rw [hassoc1]
    rw [dropSuffixIf_append, dropPrefixIf_append]
  have hu3 : (cfgA.urls (0 + 1 + 1 + 1)).length = 34 := by decide
  have he2 : dropPrefixIf contPre (dropSuffixIf (footerPre ++ cfgA.urls (0 + 1 + 1 + 1))
      (wrapAt 2 ++ (List.replicate 1 'a' ++ contSuf))) =
      List.replicate 1 'a' ++ contSuf := by
    rw [dropSuffixIf_long (by
      simp only [List.length_append, footerPre_len, contSuf_len, List.length_replicate,
        hu3, wrapAt, contPre_len]
      norm_num [contPre_len])]
    rw [show wrapAt 2 ++ (List.replicate 1 'a' ++ contSuf) =
        contPre ++ (List.replicate 1 'a' ++ contSuf) from by simp [wrapAt]]
    rw [dropPrefixIf_append]
  have hstrip : stripContents cfgA 0
      ((wrapAt 0 ++ [] ++ footerPre ++ cfgA.urls (0 + 1)) ::
        (wrapAt (0 + 1) ++ (List.replicate 1600 'a' ++ contSuf) ++ footerPre ++
          cfgA.urls (0 + 1 + 1)) ::
        (wrapAt 2 ++ (List.replicate 1 'a' ++ contSuf)) :: []) =
      [[], List.replicate 1600 'a' ++ contSuf, List.replicate 1 'a' ++ contSuf] := by
    show [dropPrefixIf contPre (dropSuffixIf (footerPre ++ cfgA.urls (0 + 1))
        (wrapAt 0 ++ [] ++ footerPre ++ cfgA.urls (0 + 1))),
      dropPrefixIf contPre (dropSuffixIf (footerPre ++ cfgA.urls (0 + 1 + 1))
        (wrapAt (0 + 1) ++ (List.replicate 1600 'a' ++ contSuf) ++ footerPre ++
          cfgA.urls (0 + 1 + 1))),
      dropPrefixIf contPre (dropSuffixIf (footerPre ++ cfgA.urls (0 + 1 + 1 + 1))
        (wrapAt 2 ++ (List.replicate 1 'a' ++ contSuf)))] = _
    rw [he0, he1, he2]
  rw [show retiredContents cfgA 0 [[], List.replicate 1600 'a' ++ contSuf] ++
      [wrapAt 2 ++ (List.replicate 1 'a' ++ contSuf)] =
      (wrapAt 0 ++ [] ++ footerPre ++ cfgA.urls (0 + 1)) ::
        (wrapAt (0 + 1) ++ (List.replicate 1600 'a' ++ contSuf) ++ footerPre ++
          cfgA.urls (0 + 1 + 1)) ::
        (wrapAt 2 ++ (List.replicate 1 'a' ++ contSuf)) :: [] from rfl]
  rw [hstrip]
  intro h
  have hlen := congrArg List.length h
  simp only [List.flatten_cons, List.flatten_nil, List.length_append, List.length_nil,
    List.length_replicate, contSuf_len] at hlen
  omega
